import Mathlib

set_option maxRecDepth 100000

/-!
Verification of the scionic-merkle-tree-ts core against its specification.

Bytes are modelled as `List Nat` (each entry `< 256`), byte strings as
`List Nat`, and JavaScript `Record`s as insertion-ordered association lists.
All definitions are transcribed from the TypeScript sources
(`src/merkleTree.ts`, `src/leaf.ts`, `src/labels.ts`, `src/transmission.ts`,
`src/partial.ts`, `src/hash.ts`, the diff module and `src/types.ts`).
-/

namespace SHA256

/-- Arithmetic is performed modulo `2^32`, as in the reference implementation. -/
def M32 : Nat := 4294967296

def rotr (n x : Nat) : Nat := ((x >>> n) ||| (x <<< (32 - n))) % M32

def K : List Nat :=
  [1116352408, 1899447441, 3049323471, 3921009573, 961987163, 1508970993,
   2453635748, 2870763221, 3624381080, 310598401, 607225278, 1426881987,
   1925078388, 2162078206, 2614888103, 3248222580, 3835390401, 4022224774,
   264347078, 604807628, 770255983, 1249150122, 1555081692, 1996064986,
   2554220882, 2821834349, 2952996808, 3210313671, 3336571891, 3584528711,
   113926993, 338241895, 666307205, 773529912, 1294757372, 1396182291,
   1695183700, 1986661051, 2177026350, 2456956037, 2730485921, 2820302411,
   3259730800, 3345764771, 3516065817, 3600352804, 4094571909, 275423344,
   430227734, 506948616, 659060556, 883997877, 958139571, 1322822218,
   1537002063, 1747873779, 1955562222, 2024104815, 2227730452, 2361852424,
   2428436474, 2756734187, 3204031479, 3329325298]

def initH : List Nat :=
  [1779033703, 3144134277, 1013904242, 2773480762,
   1359893119, 2600822924, 528734635, 1541459225]

/-- Message padding: append `0x80`, zeros, then the 64-bit big-endian bit length. -/
def pad (msg : List Nat) : List Nat :=
  let len := msg.length
  let bitLen := 8 * len
  let padZeros := (119 - len % 64) % 64
  msg ++ 0x80 :: List.replicate padZeros 0 ++
    [bitLen >>> 56 % 256, bitLen >>> 48 % 256, bitLen >>> 40 % 256,
     bitLen >>> 32 % 256, bitLen >>> 24 % 256, bitLen >>> 16 % 256,
     bitLen >>> 8 % 256, bitLen % 256]

/-- Big-endian 32-bit words from bytes. -/
def toWords : List Nat → List Nat
  | a :: b :: c :: d :: rest => (((a * 256 + b) * 256 + c) * 256 + d) :: toWords rest
  | _ => []

def smallSigma0 (x : Nat) : Nat := rotr 7 x ^^^ rotr 18 x ^^^ (x >>> 3)
def smallSigma1 (x : Nat) : Nat := rotr 17 x ^^^ rotr 19 x ^^^ (x >>> 10)
def bigSigma0 (x : Nat) : Nat := rotr 2 x ^^^ rotr 13 x ^^^ rotr 22 x
def bigSigma1 (x : Nat) : Nat := rotr 6 x ^^^ rotr 11 x ^^^ rotr 25 x

/-- Extend the 16-word schedule by `n` further words. -/
def extendFrom : Nat → List Nat → List Nat
  | 0, ws => ws
  | n + 1, ws =>
    let i := ws.length
    let w := (smallSigma1 (ws.getD (i - 2) 0) + ws.getD (i - 7) 0 +
              smallSigma0 (ws.getD (i - 15) 0) + ws.getD (i - 16) 0) % M32
    extendFrom n (ws ++ [w])

def compressLoop : List Nat → List Nat → List Nat → List Nat
  | k :: ks, w :: ws, [a, b, c, d, e, f, g, h] =>
    let ch := (e &&& f) ^^^ ((e ^^^ 0xffffffff) &&& g)
    let maj := (a &&& b) ^^^ (a &&& c) ^^^ (b &&& c)
    let t1 := (h + bigSigma1 e + ch + k + w) % M32
    let t2 := (bigSigma0 a + maj) % M32
    compressLoop ks ws [(t1 + t2) % M32, a, b, c, (d + t1) % M32, e, f, g]
  | _, _, st => st

def compressBlock (state block : List Nat) : List Nat :=
  let ws := extendFrom 48 block
  let res := compressLoop K ws state
  (state.zip res).map (fun p => (p.1 + p.2) % M32)

/-- Split a word stream into 16-word (512-bit) blocks. -/
def chunkWords : List Nat → List (List Nat)
  | w0 :: w1 :: w2 :: w3 :: w4 :: w5 :: w6 :: w7 ::
    w8 :: w9 :: w10 :: w11 :: w12 :: w13 :: w14 :: w15 :: rest =>
    [w0, w1, w2, w3, w4, w5, w6, w7, w8, w9, w10, w11, w12, w13, w14, w15] ::
      chunkWords rest
  | _ => []

def wordToBytes (w : Nat) : List Nat :=
  [w / 16777216 % 256, w / 65536 % 256, w / 256 % 256, w % 256]

def sha256 (msg : List Nat) : List Nat :=
  (((chunkWords (toWords (pad msg))).foldl compressBlock initH).map wordToBytes).flatten

end SHA256

open SHA256 in
example : sha256 [] =
    [0xe3, 0xb0, 0xc4, 0x42, 0x98, 0xfc, 0x1c, 0x14, 0x9a, 0xfb, 0xf4, 0xc8,
     0x99, 0x6f, 0xb9, 0x24, 0x27, 0xae, 0x41, 0xe4, 0x64, 0x9b, 0x93, 0x4c,
     0xa4, 0x95, 0x99, 0x1b, 0x78, 0x52, 0xb8, 0x55] := by decide

/-- UTF-8 encoding of one unicode scalar value. -/
def charUtf8 (c : Nat) : List Nat :=
  if c < 0x80 then [c]
  else if c < 0x800 then [0xc0 ||| (c >>> 6), 0x80 ||| (c &&& 0x3f)]
  else if c < 0x10000 then
    [0xe0 ||| (c >>> 12), 0x80 ||| ((c >>> 6) &&& 0x3f), 0x80 ||| (c &&& 0x3f)]
  else
    [0xf0 ||| (c >>> 18), 0x80 ||| ((c >>> 12) &&& 0x3f),
     0x80 ||| ((c >>> 6) &&& 0x3f), 0x80 ||| (c &&& 0x3f)]

/-- UTF-8 bytes of a string, as produced by `Buffer.from(s, 'utf-8')`. -/
def utf8Bytes (s : String) : List Nat :=
  (s.data.map (fun ch => charUtf8 ch.val.toNat)).flatten

/-- Lexicographic comparison of character lists by code point. -/
def charListLe : List Char → List Char → Bool
  | [], _ => true
  | _ :: _, [] => false
  | a :: as, b :: bs =>
    if a.val.toNat < b.val.toNat then true
    else if b.val.toNat < a.val.toNat then false
    else charListLe as bs

/-- The string order of JavaScript's default `Array.prototype.sort()`:
lexicographic by UTF-16 code unit, which agrees with code-point order for
the ASCII CID strings used as links. -/
def strLe (a b : String) : Bool := charListLe a.data b.data

namespace MerkleTree

/-- `hashPair` from `src/merkleTree.ts`: SHA-256 of the two nodes concatenated. -/
def hashPair (left right : List Nat) : List Nat :=
  SHA256.sha256 (left ++ right)

/-- One pairing pass of `buildTree`: adjacent nodes are hashed left-to-right,
an odd node at the end is promoted unchanged. -/
def buildLayer : List (List Nat) → List (List Nat)
  | a :: b :: rest => hashPair a b :: buildLayer rest
  | [a] => [a]
  | [] => []

/-- The layers strictly above the input layer.  The `while` loop of
`buildTree` runs while the current layer has more than one node; `fuel`
bounds the iteration count and `fuel = cur.length` is always sufficient
(see `buildLayers_complete`). -/
def buildLayersGo : Nat → List (List Nat) → List (List (List Nat))
  | 0, _ => []
  | fuel + 1, cur =>
    if cur.length ≤ 1 then []
    else buildLayer cur :: buildLayersGo fuel (buildLayer cur)

/-- `buildTree` from `src/merkleTree.ts`: the list of layers, input layer first. -/
def buildLayers (leaves : List (List Nat)) : List (List (List Nat)) :=
  leaves :: buildLayersGo leaves.length leaves

/-- `getRoot`: first node of the last layer. -/
def getRoot (leaves : List (List Nat)) : List Nat :=
  ((buildLayers leaves).getLastD []).headD []

structure MerkleProof where
  Siblings : List (List Nat)
  Path : Nat
deriving DecidableEq, Repr

/-- The `for level in 0 .. layers.length-2` loop of `getProof`.  The final
(root) layer is not iterated over.  The path bit for a level is set at bit
position `level` whenever the current node is a left child, even when the
sibling entry is skipped because the node was promoted without a sibling. -/
def getProofGo : List (List (List Nat)) → Nat → Nat → List (List Nat) × Nat
  | [], _, _ => ([], 0)
  | [_], _, _ => ([], 0)
  | layer :: rest, index, level =>
    let isRight := index % 2 == 1
    let bit : Nat := if isRight then 0 else 1 <<< level
    let sibIdx := if isRight then index - 1 else index + 1
    let r := getProofGo rest (index / 2) (level + 1)
    let path := r.2 ||| bit
    if sibIdx < layer.length then (layer.getD sibIdx [] :: r.1, path)
    else (r.1, path)

/-- `getProof`: `none` models the thrown index-out-of-bounds error. -/
def getProof (leaves : List (List Nat)) (leafIndex : Nat) : Option MerkleProof :=
  if leafIndex < leaves.length then
    let r := getProofGo (buildLayers leaves) leafIndex 0
    some ⟨r.1, r.2⟩
  else none

/-- The verification loop: sibling `i` is combined according to path bit `i`
(the ordinal index of the sibling, not the layer level). -/
def verifyGo : List Nat → List (List Nat) → Nat → Nat → List Nat
  | current, [], _, _ => current
  | current, s :: rest, path, i =>
    verifyGo (if path.testBit i then hashPair current s else hashPair s current)
      rest path (i + 1)

/-- `MerkleTree.verify`. -/
def verify (leaf : List Nat) (proof : MerkleProof) (root : List Nat) : Bool :=
  decide (verifyGo leaf proof.Siblings proof.Path 0 = root)

/-- Specification-side count: over the layers below the root, how many
times the node on the path from `index` upward has a sibling. -/
def countSiblingLayers : List (List (List Nat)) → Nat → Nat
  | [], _ => 0
  | [_], _ => 0
  | layer :: rest, index =>
    let sibIdx := if index % 2 == 1 then index - 1 else index + 1
    (if sibIdx < layer.length then 1 else 0) + countSiblingLayers rest (index / 2)

end MerkleTree


/-! ## Canonical leaf encoder (`src/leaf.ts`, `src/hash.ts`) -/

inductive LeafType
  | File
  | Chunk
  | Directory
deriving DecidableEq, Repr

/-- The string value of the `LeafType` enum in `src/types.ts`. -/
def LeafType.toStr : LeafType → String
  | .File => "file"
  | .Chunk => "chunk"
  | .Directory => "directory"

/-- A value occurring in the canonical record handed to the CBOR encoder. -/
inductive CanonVal
  | str : String → CanonVal
  | int : Nat → CanonVal
  | bytes : List Nat → CanonVal
  | nullV : CanonVal
  | pairs : List (String × String) → CanonVal
deriving DecidableEq, Repr

/-- A canonical record: field names with values, in insertion order. -/
abbrev CanonRecord := List (String × CanonVal)

/-- Stable insertion: `x` is placed before the first element not strictly
below it, so elements comparing equal keep their original relative order,
as JavaScript's stable `Array.prototype.sort` guarantees. -/
def stableInsert {α : Type} (le : α → α → Bool) (x : α) : List α → List α
  | [] => [x]
  | y :: ys =>
    if le y x && !le x y then y :: stableInsert le x ys
    else x :: y :: ys

/-- Stable sort.  For a comparator that is a total preorder every stable
sort produces the same output, so this models `Array.prototype.sort`. -/
def stableSort {α : Type} (le : α → α → Bool) : List α → List α
  | [] => []
  | x :: xs => stableInsert le x (stableSort le xs)

/-- `sortMapForVerification` from `src/leaf.ts`.  `le` models the boolean
test `a[0].localeCompare(b[0]) <= 0`.  An absent or empty map yields `[]`. -/
def sortMapForVerification (le : String → String → Bool)
    (map : Option (List (String × String))) : List (String × String) :=
  match map with
  | none => []
  | some entries =>
    if entries.isEmpty then []
    else stableSort (fun a b => le a.1 b.1) entries

/-- JavaScript's default `Array.prototype.sort()` on strings: lexicographic
by UTF-16 code unit, which for the ASCII CID strings used as links agrees
with Lean's `String` order. -/
def sortStrings (l : List String) : List String :=
  stableSort strLe l

/-- The object literal `leafData` in `DagLeafBuilder.buildLeaf`. -/
def buildLeafRecord (le : String → String → Bool) (itemName : String)
    (leafType : LeafType) (merkleRoot : Option (List Nat)) (linkCount : Nat)
    (contentHash : Option (List Nat)) (additionalData : Option (List (String × String))) :
    CanonRecord :=
  [("ItemName", .str itemName),
   ("Type", .str leafType.toStr),
   ("MerkleRoot", .bytes (merkleRoot.getD [])),
   ("CurrentLinkCount", .int linkCount),
   ("ContentHash", match contentHash with
     | some h => .bytes h
     | none => .nullV),
   ("AdditionalData", .pairs (sortMapForVerification le additionalData))]

/-- The object literal `leafData` in `DagLeafBuilder.buildRootLeaf`. -/
def buildRootLeafRecord (le : String → String → Bool) (itemName : String)
    (leafType : LeafType) (merkleRoot : Option (List Nat)) (linkCount : Nat)
    (leafCount contentSize dagSize : Nat)
    (contentHash : Option (List Nat)) (additionalData : Option (List (String × String))) :
    CanonRecord :=
  [("ItemName", .str itemName),
   ("Type", .str leafType.toStr),
   ("MerkleRoot", .bytes (merkleRoot.getD [])),
   ("CurrentLinkCount", .int linkCount),
   ("LeafCount", .int leafCount),
   ("ContentSize", .int contentSize),
   ("DagSize", .int dagSize),
   ("ContentHash", match contentHash with
     | some h => .bytes h
     | none => .nullV),
   ("AdditionalData", .pairs (sortMapForVerification le additionalData))]

namespace CBOR

/-- CBOR head: major type and unsigned argument, shortest form. -/
def head (major n : Nat) : List Nat :=
  if n < 24 then [major * 32 + n]
  else if n < 256 then [major * 32 + 24, n]
  else if n < 65536 then [major * 32 + 25, n / 256, n % 256]
  else if n < 4294967296 then
    [major * 32 + 26, n / 16777216 % 256, n / 65536 % 256, n / 256 % 256, n % 256]
  else
    [major * 32 + 27, n >>> 56 % 256, n >>> 48 % 256, n >>> 40 % 256,
     n >>> 32 % 256, n >>> 24 % 256, n >>> 16 % 256, n >>> 8 % 256, n % 256]

def encodeText (s : String) : List Nat :=
  head 3 (utf8Bytes s).length ++ utf8Bytes s

def encodeBytes (b : List Nat) : List Nat :=
  head 2 b.length ++ b

/-- One `{Key, Value}` object, a two-entry CBOR map. -/
def encodePair (p : String × String) : List Nat :=
  head 5 2 ++ encodeText "Key" ++ encodeText p.1 ++
    encodeText "Value" ++ encodeText p.2

def encodeVal : CanonVal → List Nat
  | .str s => encodeText s
  | .int n => head 0 n
  | .bytes b => encodeBytes b
  | .nullV => [0xf6]
  | .pairs ps => head 4 ps.length ++ (ps.map encodePair).flatten

/-- The `cbor.encode` of a record object: a CBOR map in insertion order. -/
def encodeRecord (r : CanonRecord) : List Nat :=
  head 5 r.length ++ (r.map (fun f => encodeText f.1 ++ encodeVal f.2)).flatten

end CBOR

/-- Lowercase RFC 4648 base32 alphabet from `src/hash.ts`. -/
def base32Alphabet : List Char :=
  ['a', 'b', 'c', 'd', 'e', 'f', 'g', 'h', 'i', 'j', 'k', 'l', 'm',
   'n', 'o', 'p', 'q', 'r', 's', 't', 'u', 'v', 'w', 'x', 'y', 'z',
   '2', '3', '4', '5', '6', '7']

/-- One output symbol: the low five bits of `x`. -/
def base32Sym (x : Nat) : Char := base32Alphabet.getD (x &&& 31) 'a'

/-- `base32Encode` from `src/hash.ts`.  The bit buffer `value` holds the
low `bits` significant bits (`bits < 5` on entry); each byte adds eight
bits and one or two symbols are drained.  Only the low `bits` bits of
`value` are ever read, so the unbounded accumulator is equivalent to the
32-bit-wrapping JavaScript one. -/
def base32Go : List Nat → Nat → Nat → List Char
  | [], value, bits =>
    if 0 < bits then [base32Sym (value <<< (5 - bits))] else []
  | b :: rest, value, bits =>
    let v := value * 256 + b
    let bt := bits + 8
    if 10 ≤ bt then
      base32Sym (v >>> (bt - 5)) :: base32Sym (v >>> (bt - 10)) ::
        base32Go rest v (bt - 10)
    else
      base32Sym (v >>> (bt - 5)) :: base32Go rest v (bt - 5)

/-- `createCID` from `src/hash.ts`: CID bytes are
`[version 0x01, codec 0x51, hashFunc 0x12, hashLen 0x20] ++ sha256(cbor)`,
base32-encoded with multibase prefix `b`. -/
def createCID (record : CanonRecord) : String :=
  let hash := SHA256.sha256 (CBOR.encodeRecord record)
  let cidBytes := 0x01 :: 0x51 :: 0x12 :: hash.length :: hash
  "b" ++ String.mk (base32Go cidBytes 0 0)

/-! ## DAG data model (`src/types.ts`) -/

structure ClassicTreeBranch where
  Leaf : String
  Proof : MerkleTree.MerkleProof
deriving DecidableEq, Repr

/-- `DagLeaf` from `src/types.ts`.  Optional fields are `Option`s; an
absent `Links` array behaves exactly like an empty one everywhere in the
sources, so it is modelled as `List String`.  The field `Type` of the
source is spelled `TypeF` because `Type` is reserved in Lean. -/
structure DagLeaf where
  Hash : String
  ItemName : String
  TypeF : LeafType
  ContentHash : Option (List Nat) := none
  Content : Option (List Nat) := none
  ClassicMerkleRoot : Option (List Nat) := none
  CurrentLinkCount : Nat := 0
  LeafCount : Option Nat := none
  ContentSize : Option Nat := none
  DagSize : Option Nat := none
  Links : List String := []
  ParentHash : Option String := none
  AdditionalData : Option (List (String × String)) := none
  stored_proofs : List (String × ClassicTreeBranch) := []
deriving DecidableEq, Repr

/-- `Dag` from `src/types.ts`.  `Leafs` and `Labels` are JavaScript
records, modelled as insertion-ordered association lists with unique keys;
lookup returns the first matching entry. -/
structure Dag where
  Root : String
  Leafs : List (String × DagLeaf)
  Labels : List (String × String) := []
deriving DecidableEq, Repr

/-- Record lookup (`record[key]`). -/
def recGet {α : Type} (r : List (String × α)) (k : String) : Option α :=
  (r.find? (fun e => e.1 = k)).map Prod.snd

/-- The keys of a record. -/
def recKeys {α : Type} (r : List (String × α)) : List String := r.map Prod.fst

/-! ## Leaf builder (`src/leaf.ts`) -/

/-- The builder state of `DagLeafBuilder` after `setType`/`setData`/`addLink`
calls: an item name, an optional type and data, and links in insertion
order. -/
structure BuilderInput where
  itemName : String
  leafType : Option LeafType
  data : Option (List Nat)
  links : List String
deriving Repr

/-- `DagLeafBuilder.buildLeaf`.  `le` is the `localeCompare` order used by
`sortMapForVerification`. -/
def buildLeaf (le : String → String → Bool) (b : BuilderInput)
    (additionalData : Option (List (String × String))) : Except String DagLeaf :=
  match b.leafType with
  | none => .error "Leaf must have a type"
  | some t =>
    let linksForHashing :=
      if t = LeafType.Directory then sortStrings b.links else b.links
    let merkleRoot : Option (List Nat) :=
      if 1 < linksForHashing.length then
        some (MerkleTree.getRoot
          (linksForHashing.map (fun link => SHA256.sha256 (utf8Bytes link))))
      else
        match linksForHashing with
        | [link] => some (SHA256.sha256 (utf8Bytes link))
        | _ => none
    let contentHash : Option (List Nat) := b.data.map SHA256.sha256
    let leafData :=
      buildLeafRecord le b.itemName t merkleRoot b.links.length contentHash
        additionalData
    let hash := createCID leafData
    .ok
      { Hash := hash
        ItemName := b.itemName
        TypeF := t
        CurrentLinkCount := b.links.length
        Links := linksForHashing
        ContentHash := contentHash
        Content := b.data
        ClassicMerkleRoot := merkleRoot
        AdditionalData :=
          match additionalData with
          | some ad => if ad.isEmpty then none else some ad
          | none => none }

/-- `DagLeafBuilder.buildRootLeaf`: build as a regular leaf, then re-derive
the hash from the extended record carrying the aggregate statistics. -/
def buildRootLeaf (le : String → String → Bool) (b : BuilderInput)
    (additionalData : Option (List (String × String)))
    (leafCount contentSize dagSize : Nat) : Except String DagLeaf :=
  match buildLeaf le b additionalData with
  | .error e => .error e
  | .ok leaf =>
    let leafData :=
      buildRootLeafRecord le leaf.ItemName leaf.TypeF leaf.ClassicMerkleRoot
        leaf.CurrentLinkCount leafCount contentSize dagSize leaf.ContentHash
        additionalData
    .ok { leaf with
            LeafCount := some leafCount
            ContentSize := some contentSize
            DagSize := some dagSize
            Hash := createCID leafData }

/-! ## Shared helpers for worklist traversals -/

/-- `record[key] = value`: replaces in place if the key exists, else appends. -/
def recSet {α : Type} (r : List (String × α)) (k : String) (v : α) :
    List (String × α) :=
  if (r.find? (fun e => e.1 = k)).isSome then
    r.map (fun e => if e.1 = k then (k, v) else e)
  else r ++ [(k, v)]

/-- `Set.add`, preserving JavaScript `Set` insertion order. -/
def addUnique (s : List String) (x : String) : List String :=
  if x ∈ s then s else s ++ [x]

/-- The element list of `new Set(l)`: first occurrences in order. -/
def jsSetOf (l : List String) : List String := l.foldl addUnique []

/-- Measure for the visited-set-guarded traversals: how many strings of a
finite universe are not yet marked. -/
def unmarkedCount (univ marked : List String) : Nat :=
  univ.countP (fun k => decide (k ∉ marked))

/-- Marking a fresh member of the universe strictly shrinks the measure. -/
theorem unmarkedCount_cons_lt {univ marked : List String} {h : String}
    (hmem : h ∈ univ) (hnv : h ∉ marked) :
    unmarkedCount univ (h :: marked) < unmarkedCount univ marked := by
  induction univ with
  | nil => cases hmem
  | cons a l ih =>
    unfold unmarkedCount at *
    rw [List.countP_cons, List.countP_cons]
    by_cases ha : a = h
    · subst ha
      have h1 : ¬((decide (a ∉ a :: marked)) = true) := by simp
      have h2 : (decide (a ∉ marked)) = true := by simpa using hnv
      rw [if_neg h1, if_pos h2]
      have mono : l.countP (fun k => decide (k ∉ a :: marked)) ≤
          l.countP (fun k => decide (k ∉ marked)) := by
        apply List.countP_mono_left
        intro x _ hx
        simp only [decide_eq_true_eq, List.mem_cons, not_or] at hx ⊢
        exact hx.2
      omega
    · have hmem' : h ∈ l := by
        cases hmem with
        | head => exact absurd rfl ha
        | tail _ hm => exact hm
      have heq : (decide (a ∉ h :: marked)) = (decide (a ∉ marked)) := by
        have hiff : a ∈ h :: marked ↔ a ∈ marked := by
          constructor
          · intro hc
            cases hc with
            | head => exact absurd rfl ha
            | tail _ hm => exact hm
          · intro hc
            exact List.mem_cons_of_mem h hc
        simp [hiff]
      rw [heq]
      have := ih hmem'
      omega

/-- Every string mentioned by a leaf map: its keys and all link targets. -/
def stringUniverse (leafs : List (String × DagLeaf)) : List String :=
  recKeys leafs ++ (leafs.map (fun e => e.2.Links)).flatten

theorem mem_stringUniverse_of_key {leafs : List (String × DagLeaf)} {h : String}
    (hmem : h ∈ recKeys leafs) : h ∈ stringUniverse leafs := by
  simp [stringUniverse, hmem]

theorem key_mem_of_recGet_some {α : Type} {r : List (String × α)} {k : String}
    {v : α} (hget : recGet r k = some v) : k ∈ r.map Prod.fst := by
  unfold recGet at hget
  match hfind : r.find? (fun e => e.1 = k) with
  | none => rw [hfind] at hget; cases hget
  | some e =>
    have hmem := List.mem_of_find?_eq_some hfind
    have hpred := List.find?_some hfind
    have : e.1 = k := by simpa using hpred
    subst this
    exact List.mem_map_of_mem Prod.fst hmem

theorem mem_stringUniverse_of_link {leafs : List (String × DagLeaf)}
    {h l : String} {leaf : DagLeaf} (hget : recGet leafs h = some leaf)
    (hl : l ∈ leaf.Links) : l ∈ stringUniverse leafs := by
  unfold recGet at hget
  match hfind : leafs.find? (fun e => e.1 = h) with
  | none => rw [hfind] at hget; cases hget
  | some e =>
    rw [hfind] at hget
    have hmem := List.mem_of_find?_eq_some hfind
    have he : e.2 = leaf := by simpa using hget
    subst he
    unfold stringUniverse
    rw [List.mem_append]
    right
    rw [List.mem_flatten]
    exact ⟨e.2.Links, List.mem_map_of_mem (fun x => x.2.Links) hmem, hl⟩

/-! ## Labels / LeafSync protocol (`src/labels.ts`) -/

/-- The traversal state of `iterateDag` combined with the label bookkeeping
of `calculateLabels`: the visited set, the labels record in insertion
order, and the running counter (starting at 1). -/
structure LabelState where
  visited : List String
  labels : List (String × String)
  counter : Nat
deriving DecidableEq, Repr

/-- The recursive `iterate` of `iterateDag`, specialised to the label-assigning
callback of `calculateLabels`, written with an explicit pre-order worklist:
popping a hash checks the visited set, marks it, fails when the leaf is
missing (`Child is missing when iterating DAG`), otherwise processes the
leaf — the callback skips the leaf whose `Hash` equals `dag.Root`, every
other leaf is appended to the labels record under the next counter value —
and pushes its links in order, depth-first.  The function reads only the
DAG's `Root` and `Leafs`, never its `Labels`.  Visiting one fresh leaf
marks it visited and, unless its `Hash` is the root's, appends the next
label (mapping the counter's decimal string to `leaf.Hash`) and advances
the counter. -/
def labelStep (root h : String) (leaf : DagLeaf) (st : LabelState) : LabelState :=
  if leaf.Hash = root then { st with visited := h :: st.visited }
  else
    { visited := h :: st.visited
      labels := st.labels ++ [(toString st.counter, leaf.Hash)]
      counter := st.counter + 1 }

def labelsDFS (root : String) (leafs : List (String × DagLeaf)) :
    List String → LabelState → Except String LabelState
  | [], st => .ok st
  | h :: stack, st =>
    if hv : h ∈ st.visited then labelsDFS root leafs stack st
    else
      match hget : recGet leafs h with
      | none => .error ("Child is missing when iterating DAG (hash: " ++ h ++ ")")
      | some leaf =>
        labelsDFS root leafs (leaf.Links ++ stack) (labelStep root h leaf st)
termination_by stack st => (unmarkedCount (recKeys leafs) st.visited, stack.length)
decreasing_by
  · exact Prod.Lex.right _ (Nat.lt_succ_self _)
  · apply Prod.Lex.left
    have hlt := unmarkedCount_cons_lt (key_mem_of_recGet_some hget) hv
    unfold labelStep
    split <;> exact hlt

/-- `calculateLabels`: clears the labels, walks the DAG depth-first from
`Root`, and returns the relabelled DAG together with the number of labels
assigned (`labelCounter - 1`). -/
def calculateLabels (dag : Dag) : Except String (Dag × Nat) :=
  match labelsDFS dag.Root dag.Leafs [dag.Root] ⟨[], [], 1⟩ with
  | .error e => .error e
  | .ok st => .ok ({ dag with Labels := st.labels }, st.counter - 1)

/-- `getLabel`: the root is implicitly label `"0"`; otherwise the labels
record is searched by value. -/
def getLabel (dag : Dag) (hash : String) : Except String String :=
  if hash = dag.Root then .ok "0"
  else if dag.Labels.isEmpty then
    .error "Labels not calculated, call calculateLabels() first"
  else
    match dag.Labels.find? (fun e => e.2 = hash) with
    | some e => .ok e.1
    | none => .error ("Hash " ++ hash ++ " not found in labels")

/-! ## Transmission protocol (`src/transmission.ts`) -/

structure TransmissionPacket where
  Leaf : DagLeaf
  ParentHash : String
  proofs : List (String × ClassicTreeBranch) := []
deriving DecidableEq, Repr

/-- `buildChildProofs`: an ephemeral classic tree over the SHA-256 of each
link (in stored order), and one proof per link, keyed by child hash.  The
`try`/`catch` of the source cannot fire here: the tree has at least two
leaves and every proof index is in bounds. -/
def buildChildProofs (parent : DagLeaf) : List (String × ClassicTreeBranch) :=
  if parent.Links.length ≤ 1 ∨ parent.ClassicMerkleRoot = none then []
  else
    let hashedLeaves := parent.Links.map (fun link => SHA256.sha256 (utf8Bytes link))
    (List.range parent.Links.length).foldl
      (fun proofs i =>
        match MerkleTree.getProof hashedLeaves i with
        | some proof =>
          let childHash := parent.Links.getD i ""
          recSet proofs childHash ⟨childHash, proof⟩
        | none => proofs)
      []

/-- The packet emitted for one child in `getLeafSequence`: the child's
leaf, the parent hash, and the child's proof when one was built. -/
def kidPacket (childProofs : List (String × ClassicTreeBranch))
    (current child : String) (childLeaf : DagLeaf) : TransmissionPacket :=
  { Leaf := childLeaf
    ParentHash := current
    proofs :=
      match recGet childProofs child with
      | some br => [(child, br)]
      | none => [] }

/-- The `for (const childHash of sortedLinks)` loop of `getLeafSequence`:
fresh, present children receive a packet, are marked visited and queued.
`cloneLeaf` is a deep copy and therefore the identity on our immutable
values.  Returns the final visited set, the packet list, and the hashes to
append to the queue. -/
def processKids (leafs : List (String × DagLeaf)) (current : String)
    (childProofs : List (String × ClassicTreeBranch)) :
    List String → List String → List TransmissionPacket → List String →
    List String × List TransmissionPacket × List String
  | [], visited, acc, adds => (visited, acc, adds)
  | child :: rest, visited, acc, adds =>
    if child ∈ visited then processKids leafs current childProofs rest visited acc adds
    else
      match recGet leafs child with
      | none => processKids leafs current childProofs rest visited acc adds
      | some childLeaf =>
        processKids leafs current childProofs rest (child :: visited)
          (acc ++ [kidPacket childProofs current child childLeaf]) (adds ++ [child])

/-- Either `processKids` touches nothing, or its visited set strictly
shrinks the unmarked measure. -/
theorem processKids_measure (leafs : List (String × DagLeaf)) (current : String)
    (childProofs : List (String × ClassicTreeBranch)) :
    ∀ (kids : List String) (visited : List String)
      (acc : List TransmissionPacket) (adds : List String),
      ((processKids leafs current childProofs kids visited acc adds).1 = visited ∧
        (processKids leafs current childProofs kids visited acc adds).2.2 = adds) ∨
        unmarkedCount (recKeys leafs)
            (processKids leafs current childProofs kids visited acc adds).1 <
          unmarkedCount (recKeys leafs) visited := by
  intro kids
  induction kids with
  | nil => intro visited acc adds; left; exact ⟨rfl, rfl⟩
  | cons child rest ih =>
    intro visited acc adds
    by_cases hv : child ∈ visited
    · simpa [processKids, hv] using ih visited acc adds
    · match hget : recGet leafs child with
      | none => simpa [processKids, hv, hget] using ih visited acc adds
      | some childLeaf =>
        have hunf : processKids leafs current childProofs (child :: rest) visited acc adds =
            processKids leafs current childProofs rest (child :: visited)
              (acc ++ [kidPacket childProofs current child childLeaf])
              (adds ++ [child]) := by
          simp only [processKids]
          rw [if_neg hv, hget]
        rw [hunf]
        have hstep := unmarkedCount_cons_lt
          (key_mem_of_recGet_some hget) hv
        rcases ih (child :: visited)
            (acc ++ [kidPacket childProofs current child childLeaf])
            (adds ++ [child]) with ⟨h1, _⟩ | hlt
        · right; rw [h1]; exact hstep
        · right; exact Nat.lt_trans hlt hstep

/-- The child proofs built for one BFS parent (`Links.length > 1 &&
ClassicMerkleRoot` guard in `getLeafSequence`). -/
def seqChildProofs (currentLeaf : DagLeaf) : List (String × ClassicTreeBranch) :=
  if 1 < currentLeaf.Links.length ∧ currentLeaf.ClassicMerkleRoot.isSome then
    buildChildProofs currentLeaf
  else []

/-- The BFS `while` loop of `getLeafSequence`.  Only hashes present in
`Leafs` are ever enqueued, so the `none` arm (where JavaScript would fault
reading `.Links` of `undefined`) is unreachable. -/
def seqBFS (leafs : List (String × DagLeaf)) :
    List String → List String → List TransmissionPacket → List TransmissionPacket
  | [], _, acc => acc
  | current :: queue, visited, acc =>
    match recGet leafs current with
    | none => seqBFS leafs queue visited acc
    | some currentLeaf =>
      if currentLeaf.Links.isEmpty then seqBFS leafs queue visited acc
      else
        let r := processKids leafs current (seqChildProofs currentLeaf)
          (sortStrings currentLeaf.Links) visited acc []
        seqBFS leafs (queue ++ r.2.2) r.1 r.2.1
termination_by queue visited => (unmarkedCount (recKeys leafs) visited, queue.length)
decreasing_by
  · exact Prod.Lex.right _ (Nat.lt_succ_self _)
  · rcases processKids_measure leafs current (seqChildProofs currentLeaf)
      (sortStrings currentLeaf.Links) visited acc [] with ⟨h1, h2⟩ | hlt
    · rw [h1, h2, List.append_nil]
      exact Prod.Lex.right _ (Nat.lt_succ_self _)
    · exact Prod.Lex.left _ _ hlt

/-- `getLeafSequence`: empty when the root leaf is missing; otherwise the
root packet (`ParentHash = ""`) followed by the BFS packet stream. -/
def getLeafSequence (dag : Dag) : List TransmissionPacket :=
  match recGet dag.Leafs dag.Root with
  | none => []
  | some rootLeaf =>
    seqBFS dag.Leafs [dag.Root] [dag.Root]
      [{ Leaf := rootLeaf, ParentHash := "", proofs := [] }]

/-- `verifyTransmissionPacket`.  `Except.ok ()` models normal return,
`Except.error` a thrown `ScionicError`.  The JavaScript truthiness tests
`!packet.Leaf.Hash` / `!packet.Leaf.ItemName` are empty-string tests. -/
def verifyTransmissionPacket (dag : Dag) (packet : TransmissionPacket) :
    Except String Unit :=
  if packet.ParentHash = "" then
    if packet.Leaf.Hash = "" ∨ packet.Leaf.ItemName = "" then
      .error "Invalid root leaf in transmission packet"
    else .ok ()
  else
    match recGet dag.Leafs packet.ParentHash with
    | none => .error ("Parent " ++ packet.ParentHash ++ " not found in DAG")
    | some parent =>
      if 1 < parent.Links.length then
        match recGet packet.proofs packet.Leaf.Hash with
        | none => .error ("Missing Merkle proof for leaf " ++ packet.Leaf.Hash)
        | some branch =>
          match parent.ClassicMerkleRoot with
          | none => .ok ()
          | some root =>
            let leafHash := SHA256.sha256 (utf8Bytes packet.Leaf.Hash)
            if MerkleTree.verify leafHash branch.Proof root then .ok ()
            else .error ("Invalid Merkle proof for leaf " ++ packet.Leaf.Hash)
      else .ok ()

/-! ## Partial DAGs (`src/partial.ts`) -/

/-- The `for (const childHash of leaf.Links)` loop of the parent-map BFS in
`findPathToRoot`: each not-yet-queued child is recorded in the parent map
with the popped node as parent, marked queued and appended to the queue. -/
def pathKids (current : String) :
    List String → List String → List String → List (String × String) →
    List String × List String × List (String × String)
  | [], queued, adds, parents => (queued, adds, parents)
  | child :: rest, queued, adds, parents =>
    if child ∈ queued then pathKids current rest queued adds parents
    else
      pathKids current rest (child :: queued) (adds ++ [child])
        (parents ++ [(child, current)])

/-- Either `pathKids` touches nothing, or its queued set strictly shrinks
the unmarked measure over any universe containing the children. -/
theorem pathKids_measure (univ : List String) (current : String) :
    ∀ (kids queued adds : List String) (parents : List (String × String)),
      (∀ c ∈ kids, c ∈ univ) →
      (((pathKids current kids queued adds parents).1 = queued ∧
         (pathKids current kids queued adds parents).2.1 = adds) ∨
        unmarkedCount univ (pathKids current kids queued adds parents).1 <
          unmarkedCount univ queued) := by
  intro kids
  induction kids with
  | nil => intro queued adds parents _; left; exact ⟨rfl, rfl⟩
  | cons child rest ih =>
    intro queued adds parents hmem
    have hrest : ∀ c ∈ rest, c ∈ univ := fun c hc => hmem c (List.mem_cons_of_mem _ hc)
    by_cases hq : child ∈ queued
    · simpa [pathKids, hq] using ih queued adds parents hrest
    · have hunf : pathKids current (child :: rest) queued adds parents =
          pathKids current rest (child :: queued) (adds ++ [child])
            (parents ++ [(child, current)]) := by
        simp only [pathKids]
        rw [if_neg hq]
      rw [hunf]
      have hstep := unmarkedCount_cons_lt
        (hmem child (List.mem_cons_self child rest)) hq
      rcases ih (child :: queued) (adds ++ [child]) (parents ++ [(child, current)])
          hrest with ⟨h1, _⟩ | hlt
      · right; rw [h1]; exact hstep
      · right; exact Nat.lt_trans hlt hstep

/-- The BFS of `findPathToRoot` building the parent map.  Popping a hash
whose leaf is absent models the JavaScript `TypeError` on reading `.Links`
of `undefined` (this happens exactly when a dangling link is reached). -/
def pathBFS (leafs : List (String × DagLeaf)) :
    List String → List String → List (String × String) →
    Except String (List (String × String))
  | [], _, parents => .ok parents
  | current :: queue, queued, parents =>
    match hget : recGet leafs current with
    | none => .error ("TypeError: cannot read Links of missing leaf " ++ current)
    | some leaf =>
      let r := pathKids current leaf.Links queued [] parents
      pathBFS leafs (queue ++ r.2.1) r.1 r.2.2
termination_by queue queued => (unmarkedCount (stringUniverse leafs) queued, queue.length)
decreasing_by
  · rcases pathKids_measure (stringUniverse leafs) current leaf.Links queued [] parents
        (fun c hc => mem_stringUniverse_of_link hget hc) with ⟨h1, h2⟩ | hlt
    · rw [h1, h2, List.append_nil]
      exact Prod.Lex.right _ (Nat.lt_succ_self _)
    · exact Prod.Lex.left _ _ hlt

/-- The `while (current)` loop tracing a leaf back to the root through the
parent map.  The loop tests string truthiness, so the empty string stops
it before being recorded.  `fuel` bounds the number of steps; for parent
maps produced by `pathBFS` the chain is duplicate-free, so
`parents.length + 1` steps always suffice. -/
def chase (parents : List (String × String)) : Nat → String → List String
  | 0, _ => []
  | fuel + 1, current =>
    if current = "" then []
    else
      current ::
        match recGet parents current with
        | none => []
        | some par => chase parents fuel par

/-- `findPathToRoot`: build the parent map by BFS from the root, then trace
the chain from the requested leaf. -/
def findPathToRoot (dag : Dag) (leafHash : String) :
    Except String (List String) :=
  match pathBFS dag.Leafs [dag.Root] [dag.Root] [] with
  | .error e => .error e
  | .ok parents => .ok (chase parents (parents.length + 1) leafHash)

/-- `cloneLeaf` with the link pruning of `getPartial` applied when
requested. -/
def pruneClone (relevant : List String) (pruneLinks : Bool) (leaf : DagLeaf) :
    DagLeaf :=
  if pruneLinks then
    let pruned := leaf.Links.filter (fun link => decide (link ∈ relevant))
    { leaf with Links := pruned, CurrentLinkCount := pruned.length }
  else leaf

/-- The body of the `for (const requestedHash of leafHashes)` loop of
`getPartial`: check the requested leaf exists, trace its chain to the
root, and add the requested hash and every chain hash to the relevant
set. -/
def getPartialStep (dag : Dag) (acc : Except String (List String))
    (requestedHash : String) : Except String (List String) :=
  match acc with
  | .error e => .error e
  | .ok relevant =>
    match recGet dag.Leafs requestedHash with
    | none => .error ("Leaf not found: " ++ requestedHash)
    | some _ =>
      match findPathToRoot dag requestedHash with
      | .error e => .error e
      | .ok chain =>
        .ok (chain.foldl addUnique (addUnique relevant requestedHash))

/-- `getPartial`: collect the relevant hashes (the root, each requested
leaf, and its chain back to the root) in `Set` insertion order, then copy
the present ones, pruning links when requested. -/
def getPartial (dag : Dag) (leafHashes : List String) (pruneLinks : Bool) :
    Except String Dag :=
  if leafHashes.isEmpty then .error "No leaf hashes provided"
  else
    match leafHashes.foldl (getPartialStep dag) (.ok [dag.Root]) with
    | .error e => .error e
    | .ok relevant =>
      .ok { Root := dag.Root
            Labels := []
            Leafs := relevant.filterMap (fun h =>
              (recGet dag.Leafs h).map (fun leaf =>
                (h, pruneClone relevant pruneLinks leaf))) }

/-- `isPartial`: some leaf links to a hash absent from `Leafs`. -/
def isPartial (dag : Dag) : Bool :=
  dag.Leafs.any (fun e => e.2.Links.any (fun l => (recGet dag.Leafs l).isNone))

/-! ## DAG diff (the diff module) -/

inductive DiffType
  | Added
  | Removed
deriving DecidableEq, Repr

structure LeafDiff where
  type : DiffType
  hash : String
  leaf : DagLeaf
deriving DecidableEq, Repr

structure DiffSummary where
  added : Nat
  removed : Nat
  total : Nat
deriving DecidableEq, Repr

structure DagDiff where
  diffs : List (String × LeafDiff)
  summary : DiffSummary
deriving DecidableEq, Repr

/-- `diff(firstDag, secondDag)`: hashes of the second DAG absent from the
first are `Added` (in second-DAG key order), then hashes of the first
absent from the second are `Removed` (in first-DAG key order). -/
def diff (firstDag secondDag : Dag) : DagDiff :=
  let oldLeaves := jsSetOf (recKeys firstDag.Leafs)
  let newLeaves := jsSetOf (recKeys secondDag.Leafs)
  let addedDiffs : List (String × LeafDiff) := newLeaves.filterMap (fun h =>
    if h ∈ oldLeaves then none
    else (recGet secondDag.Leafs h).map (fun leaf => (h, ⟨.Added, h, leaf⟩)))
  let removedDiffs : List (String × LeafDiff) := oldLeaves.filterMap (fun h =>
    if h ∈ newLeaves then none
    else (recGet firstDag.Leafs h).map (fun leaf => (h, ⟨.Removed, h, leaf⟩)))
  { diffs := addedDiffs ++ removedDiffs
    summary := { added := addedDiffs.length
                 removed := removedDiffs.length
                 total := addedDiffs.length + removedDiffs.length } }

/-- `getAddedLeaves`: the `Added` entries of a diff, in insertion order. -/
def getAddedLeaves (dagDiff : DagDiff) : List (String × DagLeaf) :=
  dagDiff.diffs.filterMap (fun e =>
    if e.2.type = DiffType.Added then some (e.1, e.2.leaf) else none)

/-- The recursive `traverse` of `applyDiffToDag`, as a pre-order worklist:
collects every leaf reachable from the new root within the pool, failing
on a hash missing from the pool. -/
def collectDFS (pool : List (String × DagLeaf)) :
    List String → List String → List (String × DagLeaf) →
    Except String (List (String × DagLeaf))
  | [], _, acc => .ok acc
  | h :: stack, visited, acc =>
    if hv : h ∈ visited then collectDFS pool stack visited acc
    else
      match hget : recGet pool h with
      | none => .error ("Missing leaf in pool: " ++ h)
      | some leaf =>
        collectDFS pool (leaf.Links ++ stack) (h :: visited) (acc ++ [(h, leaf)])
termination_by stack visited => (unmarkedCount (recKeys pool) visited, stack.length)
decreasing_by
  · exact Prod.Lex.right _ (Nat.lt_succ_self _)
  · exact Prod.Lex.left _ _ (unmarkedCount_cons_lt (key_mem_of_recGet_some hget) hv)

/-- `applyDiffToDag`: with no additions, a copy of the old DAG; otherwise
pool old and added leaves, pick the first added leaf that is not referenced
as a link and has a positive `LeafCount` as the new root, and collect its
reachable closure. -/
def applyDiffToDag (dagDiff : DagDiff) (oldDag : Dag) : Except String Dag :=
  if dagDiff.summary.added = 0 then
    .ok { Root := oldDag.Root, Leafs := oldDag.Leafs, Labels := [] }
  else
    let addedLeaves := getAddedLeaves dagDiff
    let leafPool := addedLeaves.foldl (fun pool e => recSet pool e.1 e.2) oldDag.Leafs
    let childHashes := jsSetOf ((leafPool.map (fun e => e.2.Links)).flatten)
    match addedLeaves.find? (fun e =>
        decide (e.1 ∉ childHashes) && decide (0 < e.2.LeafCount.getD 0)) with
    | none => .error "Cannot find new root among added leaves"
    | some rootEntry =>
      match collectDFS leafPool [rootEntry.1] [] [] with
      | .error e => .error e
      | .ok newLeaves => .ok { Root := rootEntry.1, Leafs := newLeaves, Labels := [] }

/-! ## Reachability -/

/-- `linksTo leafs a b`: the leaf stored at `a` has `b` among its links. -/
def linksTo (leafs : List (String × DagLeaf)) (a b : String) : Prop :=
  ∃ leaf, recGet leafs a = some leaf ∧ b ∈ leaf.Links

/-- `Reach leafs a b`: `b` is reachable from `a` by following `Links` of
leaves present in `leafs` (reflexively). -/
inductive Reach (leafs : List (String × DagLeaf)) : String → String → Prop
  | refl (h : String) : Reach leafs h h
  | step {a b c : String} {leaf : DagLeaf} :
      Reach leafs a b → recGet leafs b = some leaf → c ∈ leaf.Links →
      Reach leafs a c

/-- The acceptance condition for a non-root packet exactly as the claim
states it: the declared parent must exist in the receiver's DAG, and when
it has more than one link the packet must carry a proof keyed by the
leaf's hash that verifies against the parent's `ClassicMerkleRoot` (a
parent without a `ClassicMerkleRoot` offers nothing to verify against). -/
def specNonRootPacketAccepts (dag : Dag) (packet : TransmissionPacket) : Bool :=
  match recGet dag.Leafs packet.ParentHash with
  | none => false
  | some parent =>
    if 1 < parent.Links.length then
      match recGet packet.proofs packet.Leaf.Hash, parent.ClassicMerkleRoot with
      | some branch, some root =>
        MerkleTree.verify (SHA256.sha256 (utf8Bytes packet.Leaf.Hash))
          branch.Proof root
      | _, _ => false
    else true

instance {α β : Type} [DecidableEq α] [DecidableEq β] :
    DecidableEq (Except α β) := fun x y =>
  match x, y with
  | .error a, .error b =>
    if h : a = b then .isTrue (congrArg Except.error h)
    else .isFalse (fun hc => h (Except.error.inj hc))
  | .ok a, .ok b =>
    if h : a = b then .isTrue (congrArg Except.ok h)
    else .isFalse (fun hc => h (Except.ok.inj hc))
  | .error _, .ok _ => .isFalse (fun hc => Except.noConfusion hc)
  | .ok _, .error _ => .isFalse (fun hc => Except.noConfusion hc)

/-! # Claim theorems -/

/-! ## C1 -/

/-- C1 (code bug): proof soundness fails on the tree built from the
three-leaf list `[[0x00], [0x01], [0x02]]`.  `getProof` records the path
bit of a level at bit position `level` — even at levels where the sibling
entry is skipped for an odd promoted node — while `verify` reads bit `i`
for sibling number `i`, so for leaf index 2 the single recorded sibling is
combined on the wrong side and verification returns `false` although leaf,
proof and root all come from the unmutated tree.  Indices 0 and 1 of the
same tree verify, isolating the defect to the odd promoted path. -/
theorem c1_verify_rejects_valid_proof_of_promoted_leaf :
    (MerkleTree.getProof [[0], [1], [2]] 2).map
        (fun p => MerkleTree.verify [2] p (MerkleTree.getRoot [[0], [1], [2]])) =
      some false ∧
    (MerkleTree.getProof [[0], [1], [2]] 0).map
        (fun p => MerkleTree.verify [0] p (MerkleTree.getRoot [[0], [1], [2]])) =
      some true ∧
    (MerkleTree.getProof [[0], [1], [2]] 1).map
        (fun p => MerkleTree.verify [1] p (MerkleTree.getRoot [[0], [1], [2]])) =
      some true := by
  refine ⟨by decide, by decide, by decide⟩

/-! ## C4 -/

theorem buildLayer_length (l : List (List Nat)) :
    (MerkleTree.buildLayer l).length = (l.length + 1) / 2 := by
  induction l using MerkleTree.buildLayer.induct with
  | case1 a b rest ih =>
    simp only [MerkleTree.buildLayer, List.length_cons, ih]
    omega
  | case2 a => simp [MerkleTree.buildLayer]
  | case3 => simp [MerkleTree.buildLayer]

theorem buildLayer_getLast?_of_odd (l : List (List Nat))
    (hodd : l.length % 2 = 1) :
    (MerkleTree.buildLayer l).getLast? = l.getLast? := by
  induction l using MerkleTree.buildLayer.induct with
  | case1 a b rest ih =>
    have hro : rest.length % 2 = 1 := by
      simp only [List.length_cons] at hodd
      omega
    match hr : rest with
    | [] => simp at hro
    | r :: rs =>
      have hlen : 0 < (MerkleTree.buildLayer (r :: rs)).length := by
        rw [buildLayer_length]
        simp only [List.length_cons]
        omega
      match hb : MerkleTree.buildLayer (r :: rs) with
      | [] => rw [hb] at hlen; simp at hlen
      | z :: zs =>
        have hih := ih hro
        rw [hb] at hih
        show (MerkleTree.buildLayer (a :: b :: r :: rs)).getLast? =
          (a :: b :: r :: rs).getLast?
        simp only [MerkleTree.buildLayer]
        rw [hb]
        simp only [List.getLast?_cons_cons]
        exact hih
  | case2 a => rfl
  | case3 => simp at hodd

theorem getProofGo_siblings_length (layers : List (List (List Nat)))
    (index level : Nat) :
    (MerkleTree.getProofGo layers index level).1.length =
      MerkleTree.countSiblingLayers layers index := by
  induction layers, index, level using MerkleTree.getProofGo.induct with
  | case1 => rfl
  | case2 => rfl
  | case3 layer rest index level hne hlt ih =>
    simp only [MerkleTree.getProofGo, MerkleTree.countSiblingLayers]
    split <;> split <;> simp_all <;> omega
  | case4 layer rest index level hne hge ih =>
    simp only [MerkleTree.getProofGo, MerkleTree.countSiblingLayers]
    split <;> split <;> simp_all <;> omega

/-- C4: in `buildTree`, a layer of odd length keeps its last node unchanged
in the next layer (the next layer has `(n+1)/2` nodes, so the odd node is
promoted, not duplicated or self-hashed), and `getProof` records exactly
one sibling per layer on which the current node has one — no placeholder
is inserted for levels without a sibling, as witnessed concretely by leaf
2 of a three-leaf tree whose proof holds one sibling over two levels. -/
theorem c4_odd_promotion_and_proof_shape :
    (∀ l : List (List Nat), l.length % 2 = 1 →
      (MerkleTree.buildLayer l).getLast? = l.getLast? ∧
      (MerkleTree.buildLayer l).length = (l.length + 1) / 2) ∧
    (∀ (leaves : List (List Nat)) (i : Nat) (p : MerkleTree.MerkleProof),
      MerkleTree.getProof leaves i = some p →
      p.Siblings.length =
        MerkleTree.countSiblingLayers (MerkleTree.buildLayers leaves) i) ∧
    ((MerkleTree.getProof [[0], [1], [2]] 2).map
        (fun p => p.Siblings.length) = some 1 ∧
      (MerkleTree.buildLayers [[0], [1], [2]]).length = 3) := by
  refine ⟨fun l hodd => ⟨buildLayer_getLast?_of_odd l hodd, buildLayer_length l⟩,
    fun leaves i p hp => ?_, by decide, by decide⟩
  unfold MerkleTree.getProof at hp
  by_cases hi : i < leaves.length
  · rw [if_pos hi] at hp
    cases hp
    exact getProofGo_siblings_length _ _ _
  · rw [if_neg hi] at hp
    cases hp

/-! ## C2 -/

theorem stableInsert_perm {α : Type} (le : α → α → Bool) (x : α) (l : List α) :
    (stableInsert le x l).Perm (x :: l) := by
  induction l with
  | nil => simp [stableInsert]
  | cons y ys ih =>
    simp only [stableInsert]
    split
    · exact (ih.cons y).trans (List.Perm.swap x y ys)
    · exact List.Perm.refl _

theorem stableSort_perm {α : Type} (le : α → α → Bool) (l : List α) :
    (stableSort le l).Perm l := by
  induction l with
  | nil => simp [stableSort]
  | cons x xs ih => exact (stableInsert_perm le x _).trans (ih.cons x)

theorem stableInsert_sorted {α : Type} {le : α → α → Bool}
    (htot : ∀ a b, le a b = true ∨ le b a = true)
    (htrans : ∀ a b c, le a b = true → le b c = true → le a c = true)
    (x : α) (l : List α) (hl : l.Pairwise (fun a b => le a b = true)) :
    (stableInsert le x l).Pairwise (fun a b => le a b = true) := by
  induction l with
  | nil => simp [stableInsert]
  | cons y ys ih =>
    rcases List.pairwise_cons.mp hl with ⟨hy, hys⟩
    simp only [stableInsert]
    split
    · rename_i hcond
      refine List.pairwise_cons.mpr ⟨?_, ih hys⟩
      intro z hz
      have hz' := (stableInsert_perm le x ys).mem_iff.mp hz
      rcases List.mem_cons.mp hz' with rfl | hzys
      · have := Bool.and_eq_true _ _ |>.mp hcond
        exact this.1
      · exact hy z hzys
    · rename_i hcond
      have hxy : le x y = true := by
        rcases htot x y with h | h
        · exact h
        · by_cases hxy' : le x y = true
          · exact hxy'
          · exact absurd (by simp [h, hxy']) hcond
      refine List.pairwise_cons.mpr ⟨?_, hl⟩
      intro z hz
      rcases List.mem_cons.mp hz with rfl | hzys
      · exact hxy
      · exact htrans x y z hxy (hy z hzys)

theorem stableSort_sorted {α : Type} {le : α → α → Bool}
    (htot : ∀ a b, le a b = true ∨ le b a = true)
    (htrans : ∀ a b c, le a b = true → le b c = true → le a c = true)
    (l : List α) :
    (stableSort le l).Pairwise (fun a b => le a b = true) := by
  induction l with
  | nil => simp [stableSort]
  | cons x xs ih => exact stableInsert_sorted htot htrans x _ ih

theorem charListLe_total : ∀ as bs, charListLe as bs = true ∨ charListLe bs as = true := by
  intro as
  induction as with
  | nil => intro bs; left; rfl
  | cons a as ih =>
    intro bs
    match bs with
    | [] => right; rfl
    | b :: bs =>
      simp only [charListLe]
      rcases Nat.lt_trichotomy a.val.toNat b.val.toNat with h | h | h
      · left; simp [h]
      · have h1 : ¬a.val.toNat < b.val.toNat := by omega
        have h2 : ¬b.val.toNat < a.val.toNat := by omega
        simpa [h1, h2] using ih bs
      · right; simp [h]

theorem charListLe_trans : ∀ as bs cs, charListLe as bs = true →
    charListLe bs cs = true → charListLe as cs = true := by
  intro as
  induction as with
  | nil => intro bs cs _ _; rfl
  | cons a as ih =>
    intro bs cs hab hbc
    match bs, cs with
    | [], _ => simp [charListLe] at hab
    | b :: bs, [] => simp [charListLe] at hbc
    | b :: bs, c :: cs =>
      simp only [charListLe] at hab hbc ⊢
      split_ifs at hab hbc ⊢ <;> try rfl
      all_goals (try omega)
      all_goals simp_all
      all_goals (try omega)
      exact ih bs cs hab hbc

theorem strLe_total : ∀ a b : String, strLe a b = true ∨ strLe b a = true :=
  fun a b => charListLe_total a.data b.data

theorem strLe_trans : ∀ a b c : String, strLe a b = true → strLe b c = true →
    strLe a c = true :=
  fun a b c => charListLe_trans a.data b.data c.data

theorem stableSort_length {α : Type} (le : α → α → Bool) (l : List α) :
    (stableSort le l).length = l.length :=
  (stableSort_perm le l).length_eq

/-- C2: for a non-root leaf the canonical record consists of exactly
`ItemName, Type, MerkleRoot, CurrentLinkCount, ContentHash, AdditionalData`
in that order, with `MerkleRoot` the empty byte string when there is no
merkle root, `ContentHash` null when there is no content, and
`AdditionalData` an ordered list of key/value pairs sorted by key (a
permutation of the map's entries) where an absent or empty map encodes as
the empty list; the root record inserts `LeafCount, ContentSize, DagSize`
between `CurrentLinkCount` and `ContentHash`. -/
theorem c2_canonical_record_fields
    (le : String → String → Bool)
    (htot : ∀ a b, le a b = true ∨ le b a = true)
    (htrans : ∀ a b c, le a b = true → le b c = true → le a c = true)
    (itemName : String) (t : LeafType) (mr : Option (List Nat)) (lc : Nat)
    (ch : Option (List Nat)) (ad : Option (List (String × String)))
    (leafCount contentSize dagSize : Nat) :
    recKeys (buildLeafRecord le itemName t mr lc ch ad) =
      ["ItemName", "Type", "MerkleRoot", "CurrentLinkCount",
       "ContentHash", "AdditionalData"] ∧
    buildRootLeafRecord le itemName t mr lc leafCount contentSize dagSize ch ad =
      (buildLeafRecord le itemName t mr lc ch ad).take 4 ++
        [("LeafCount", CanonVal.int leafCount),
         ("ContentSize", CanonVal.int contentSize),
         ("DagSize", CanonVal.int dagSize)] ++
        (buildLeafRecord le itemName t mr lc ch ad).drop 4 ∧
    (mr = none →
      recGet (buildLeafRecord le itemName t mr lc ch ad) "MerkleRoot" =
        some (CanonVal.bytes [])) ∧
    (∀ mrb, mr = some mrb →
      recGet (buildLeafRecord le itemName t mr lc ch ad) "MerkleRoot" =
        some (CanonVal.bytes mrb)) ∧
    (ch = none →
      recGet (buildLeafRecord le itemName t mr lc ch ad) "ContentHash" =
        some CanonVal.nullV) ∧
    (∃ ps, recGet (buildLeafRecord le itemName t mr lc ch ad) "AdditionalData" =
        some (CanonVal.pairs ps) ∧
      ps.Pairwise (fun a b => le a.1 b.1 = true) ∧
      ps.Perm (ad.getD [])) ∧
    ((ad = none ∨ ad = some []) →
      recGet (buildLeafRecord le itemName t mr lc ch ad) "AdditionalData" =
        some (CanonVal.pairs [])) := by
  refine ⟨rfl, rfl, ?_, ?_, ?_, ?_, ?_⟩
  · intro h; subst h; rfl
  · intro mrb h; subst h; rfl
  · intro h; subst h; rfl
  · refine ⟨sortMapForVerification le ad, rfl, ?_, ?_⟩
    · unfold sortMapForVerification
      match ad with
      | none => simp
      | some entries =>
        by_cases he : entries.isEmpty
        · simp [he]
        · simp only [he, if_false, Bool.false_eq_true]
          exact stableSort_sorted (fun a b => htot a.1 b.1)
            (fun a b c => htrans a.1 b.1 c.1) entries
    · unfold sortMapForVerification
      match ad with
      | none => simp
      | some entries =>
        by_cases he : entries.isEmpty
        · have : entries = [] := List.isEmpty_iff.mp he
          subst this
          simp
        · simp only [he, if_false, Bool.false_eq_true, Option.getD_some]
          exact stableSort_perm _ entries
  · intro h
    rcases h with h | h <;> subst h <;> rfl

/-- The comparator instantiation used by the C2 witness, the code-point
order that `localeCompare` implements for ASCII keys. -/
theorem c2_witness :
    recKeys (buildLeafRecord strLe "f.txt" LeafType.File none 0 none
        (some [("b", "2"), ("a", "1")])) =
      ["ItemName", "Type", "MerkleRoot", "CurrentLinkCount",
       "ContentHash", "AdditionalData"] ∧
    sortMapForVerification strLe (some [("b", "2"), ("a", "1")]) =
      [("a", "1"), ("b", "2")] :=
  ⟨(c2_canonical_record_fields strLe strLe_total strLe_trans "f.txt"
      LeafType.File none 0 none (some [("b", "2"), ("a", "1")]) 1 2 3).1,
   by decide⟩

/-! ## C3 -/

/-- C3: every leaf produced by the builder has `CurrentLinkCount` equal to
the number of added links, and its `ClassicMerkleRoot` is absent when that
count is 0, is the SHA-256 of the single link's UTF-8 bytes when the count
is 1, and is the classic tree root over the SHA-256 of each stored link in
order when the count exceeds 1. -/
theorem c3_classic_merkle_root_rule
    (le : String → String → Bool) (b : BuilderInput)
    (ad : Option (List (String × String))) (leaf : DagLeaf)
    (h : buildLeaf le b ad = Except.ok leaf) :
    leaf.CurrentLinkCount = b.links.length ∧
    leaf.Links.length = b.links.length ∧
    (leaf.CurrentLinkCount = 0 → leaf.ClassicMerkleRoot = none) ∧
    (leaf.CurrentLinkCount = 1 → ∃ l, leaf.Links = [l] ∧
      leaf.ClassicMerkleRoot = some (SHA256.sha256 (utf8Bytes l))) ∧
    (1 < leaf.CurrentLinkCount →
      leaf.ClassicMerkleRoot = some (MerkleTree.getRoot
        (leaf.Links.map (fun l => SHA256.sha256 (utf8Bytes l))))) := by
  match hbt : b.leafType with
  | none =>
    simp only [buildLeaf, hbt] at h
    exact Except.noConfusion h
  | some t =>
    simp only [buildLeaf, hbt] at h
    injection h with h2
    subst h2
    have hlen : (if t = LeafType.Directory then sortStrings b.links else b.links).length
        = b.links.length := by
      split
      · exact stableSort_length strLe b.links
      · rfl
    refine ⟨rfl, hlen, ?_, ?_, ?_⟩
    · intro h0
      have h0' : b.links.length = 0 := h0
      have hbl : b.links = [] := List.length_eq_zero.mp h0'
      show (if 1 < (if t = LeafType.Directory then sortStrings b.links
              else b.links).length then
            some (MerkleTree.getRoot ((if t = LeafType.Directory then
              sortStrings b.links else b.links).map
                (fun link => SHA256.sha256 (utf8Bytes link))))
          else
            match if t = LeafType.Directory then sortStrings b.links
              else b.links with
            | [link] => some (SHA256.sha256 (utf8Bytes link))
            | _ => none) = none
      rw [hbl]
      split <;> simp [sortStrings, stableSort]
    · intro h1
      have h1' : b.links.length = 1 := h1
      have hLfh : (if t = LeafType.Directory then sortStrings b.links
          else b.links).length = 1 := by rw [hlen]; exact h1'
      obtain ⟨l, hl⟩ := List.length_eq_one.mp hLfh
      refine ⟨l, hl, ?_⟩
      show (if 1 < (if t = LeafType.Directory then sortStrings b.links
              else b.links).length then
            some (MerkleTree.getRoot ((if t = LeafType.Directory then
              sortStrings b.links else b.links).map
                (fun link => SHA256.sha256 (utf8Bytes link))))
          else
            match if t = LeafType.Directory then sortStrings b.links
              else b.links with
            | [link] => some (SHA256.sha256 (utf8Bytes link))
            | _ => none) = some (SHA256.sha256 (utf8Bytes l))
      rw [hl]
      simp
    · intro h2
      have hgt : 1 < (if t = LeafType.Directory then sortStrings b.links
          else b.links).length := by rw [hlen]; exact h2
      show (if 1 < (if t = LeafType.Directory then sortStrings b.links
              else b.links).length then
            some (MerkleTree.getRoot ((if t = LeafType.Directory then
              sortStrings b.links else b.links).map
                (fun link => SHA256.sha256 (utf8Bytes link))))
          else
            match if t = LeafType.Directory then sortStrings b.links
              else b.links with
            | [link] => some (SHA256.sha256 (utf8Bytes link))
            | _ => none) =
          some (MerkleTree.getRoot
            ((if t = LeafType.Directory then sortStrings b.links
              else b.links).map (fun l => SHA256.sha256 (utf8Bytes l))))
      rw [if_pos hgt]

/-- Builder input for the C3 witness: a directory with two links added in
unsorted order. -/
def c3wInput : BuilderInput :=
  { itemName := "dir"
    leafType := some LeafType.Directory
    data := none
    links := ["y", "x"] }

/-- The leaf the builder produces for `c3wInput`. -/
def c3wLeaf : DagLeaf :=
  (buildLeaf strLe c3wInput none).toOption.getD
    { Hash := "", ItemName := "", TypeF := LeafType.File }

theorem except_eq_ok_of_toOption {α β : Type} (e : Except α β) (x : β)
    (h : e.toOption = some x) : e = Except.ok x := by
  cases e with
  | error a => simp [Except.toOption] at h
  | ok b => simp [Except.toOption] at h; rw [h]

theorem c3_witness :
    (buildLeaf strLe c3wInput none).toOption = some c3wLeaf ∧
    1 < c3wLeaf.CurrentLinkCount ∧
    c3wLeaf.ClassicMerkleRoot = some (MerkleTree.getRoot
      (c3wLeaf.Links.map (fun l => SHA256.sha256 (utf8Bytes l)))) :=
  ⟨by decide, by decide,
   (c3_classic_merkle_root_rule strLe c3wInput none c3wLeaf
      (except_eq_ok_of_toOption _ _ (by decide))).2.2.2.2 (by decide)⟩

theorem c4_witness :
    (MerkleTree.buildLayer [[0], [1], [2]]).getLast? = [[0], [1], [2]].getLast? ∧
    ((MerkleTree.getProof [[0], [1], [2]] 2).getD ⟨[], 0⟩).Siblings.length =
      MerkleTree.countSiblingLayers (MerkleTree.buildLayers [[0], [1], [2]]) 2 :=
  ⟨(c4_odd_promotion_and_proof_shape.1 [[0], [1], [2]] (by decide)).1,
   c4_odd_promotion_and_proof_shape.2.1 [[0], [1], [2]] 2
     ((MerkleTree.getProof [[0], [1], [2]] 2).getD ⟨[], 0⟩) (by decide)⟩

/-! ## C7 -/

/-- C7 (amended): `verifyTransmissionPacket` accepts a root packet
(`ParentHash = ""`) iff the leaf has a non-empty `Hash` and `ItemName`.
A non-root packet throws when the declared parent is absent from the
receiver's DAG; when the parent has more than one link it throws unless
the packet carries a proof keyed by the leaf's hash and, whenever the
parent records a `ClassicMerkleRoot`, that proof verifies against it — a
parent without a `ClassicMerkleRoot` causes the carried proof to be
accepted unchecked (this last case is where the original claim fails, see
`c7_counterexample`). -/
theorem c7_verify_packet_characterization (dag : Dag)
    (packet : TransmissionPacket) :
    verifyTransmissionPacket dag packet = Except.ok () ↔
      (if packet.ParentHash = "" then
        packet.Leaf.Hash ≠ "" ∧ packet.Leaf.ItemName ≠ ""
      else
        ∃ parent, recGet dag.Leafs packet.ParentHash = some parent ∧
          (1 < parent.Links.length →
            ∃ branch, recGet packet.proofs packet.Leaf.Hash = some branch ∧
              ∀ root, parent.ClassicMerkleRoot = some root →
                MerkleTree.verify (SHA256.sha256 (utf8Bytes packet.Leaf.Hash))
                  branch.Proof root = true)) := by
  unfold verifyTransmissionPacket
  by_cases hph : packet.ParentHash = ""
  · rw [if_pos hph, if_pos hph]
    by_cases hbad : packet.Leaf.Hash = "" ∨ packet.Leaf.ItemName = ""
    · rw [if_pos hbad]
      constructor
      · intro h; exact Except.noConfusion h
      · rintro ⟨h1, h2⟩
        rcases hbad with h | h
        · exact absurd h h1
        · exact absurd h h2
    · rw [if_neg hbad]
      push_neg at hbad
      exact ⟨fun _ => hbad, fun _ => rfl⟩
  · rw [if_neg hph, if_neg hph]
    match hpar : recGet dag.Leafs packet.ParentHash with
    | none =>
      constructor
      · intro h; exact Except.noConfusion h
      · rintro ⟨parent, hp, _⟩
        exact Option.noConfusion hp
    | some parent =>
      dsimp only
      by_cases hlinks : 1 < parent.Links.length
      · rw [if_pos hlinks]
        match hbr : recGet packet.proofs packet.Leaf.Hash with
        | none =>
          dsimp only
          constructor
          · intro h; exact Except.noConfusion h
          · rintro ⟨parent', hp, himp⟩
            cases Option.some.inj hp
            obtain ⟨branch, hbr', _⟩ := himp hlinks
            exact Option.noConfusion hbr'
        | some branch =>
          dsimp only
          match hroot : parent.ClassicMerkleRoot with
          | none =>
            dsimp only
            constructor
            · intro _
              exact ⟨parent, rfl, fun _ =>
                ⟨branch, rfl, fun root hr =>
                  Option.noConfusion (hroot.symm.trans hr)⟩⟩
            · intro _; rfl
          | some root =>
            dsimp only
            by_cases hv : MerkleTree.verify
                (SHA256.sha256 (utf8Bytes packet.Leaf.Hash)) branch.Proof root = true
            · rw [if_pos hv]
              constructor
              · intro _
                exact ⟨parent, rfl, fun _ =>
                  ⟨branch, rfl, fun root' hr' => by
                    cases Option.some.inj (hroot.symm.trans hr')
                    exact hv⟩⟩
              · intro _; rfl
            · rw [if_neg hv]
              constructor
              · intro h; exact Except.noConfusion h
              · rintro ⟨parent', hp, himp⟩
                cases Option.some.inj hp
                obtain ⟨branch', hbr', hvr⟩ := himp hlinks
                cases Option.some.inj hbr'
                exact absurd (hvr root hroot) hv
      · rw [if_neg hlinks]
        constructor
        · intro _
          exact ⟨parent, rfl, fun hl => absurd hl hlinks⟩
        · intro _; rfl

/-- Parent leaf of the C7 counterexample: two links but no
`ClassicMerkleRoot`. -/
def c7CexParent : DagLeaf :=
  { Hash := "p", ItemName := "p", TypeF := LeafType.Directory,
    CurrentLinkCount := 2, Links := ["x", "y"] }

def c7CexDag : Dag :=
  { Root := "p", Leafs := [("p", c7CexParent)] }

/-- A packet carrying a garbage proof for leaf `x`. -/
def c7CexPacket : TransmissionPacket :=
  { Leaf := { Hash := "x", ItemName := "x", TypeF := LeafType.File }
    ParentHash := "p"
    proofs := [("x", ⟨"x", ⟨[], 0⟩⟩)] }

/-- C7 counterexample: the parent has two links and no `ClassicMerkleRoot`;
the code accepts the packet although its proof verifies against nothing,
so the claim's acceptance condition (a proof that verifies against the
parent's `ClassicMerkleRoot`) is violated as stated. -/
theorem c7_counterexample :
    c7CexPacket.ParentHash ≠ "" ∧
    verifyTransmissionPacket c7CexDag c7CexPacket = Except.ok () ∧
    specNonRootPacketAccepts c7CexDag c7CexPacket = false :=
  ⟨by decide, by decide, by decide⟩

/-- One-link parent accepted without proof, via the characterization. -/
def c7wParent : DagLeaf :=
  { Hash := "p", ItemName := "p", TypeF := LeafType.Directory,
    CurrentLinkCount := 1, Links := ["x"] }

def c7wDag : Dag :=
  { Root := "p", Leafs := [("p", c7wParent)] }

def c7wPacket : TransmissionPacket :=
  { Leaf := { Hash := "x", ItemName := "x", TypeF := LeafType.File }
    ParentHash := "p" }

theorem c7_witness :
    verifyTransmissionPacket c7wDag c7wPacket = Except.ok () :=
  (c7_verify_packet_characterization c7wDag c7wPacket).mpr
    (by
      rw [if_neg (by decide : ¬c7wPacket.ParentHash = "")]
      exact ⟨c7wParent, by decide, fun hl => absurd hl (by decide)⟩)

/-! ## C5 and C10: labels -/

theorem labelsDFS_nil (root : String) (leafs : List (String × DagLeaf)) (st : LabelState) :
    labelsDFS root leafs [] st = Except.ok st := by
  rw [labelsDFS]

theorem labelsDFS_cons_visited (root : String) (leafs : List (String × DagLeaf))
    (h : String) (stack : List String) (st : LabelState) (hv : h ∈ st.visited) :
    labelsDFS root leafs (h :: stack) st = labelsDFS root leafs stack st := by
  rw [labelsDFS, dif_pos hv]

theorem labelsDFS_cons_missing (root : String) (leafs : List (String × DagLeaf))
    (h : String) (stack : List String) (st : LabelState) (hv : h ∉ st.visited)
    (hget : recGet leafs h = none) :
    labelsDFS root leafs (h :: stack) st =
      Except.error ("Child is missing when iterating DAG (hash: " ++ h ++ ")") := by
  rw [labelsDFS, dif_neg hv]
  split
  · rfl
  · rename_i leaf heq; rw [hget] at heq; cases heq

theorem labelsDFS_cons_found (root : String) (leafs : List (String × DagLeaf))
    (h : String) (stack : List String) (st : LabelState) (leaf : DagLeaf)
    (hv : h ∉ st.visited) (hget : recGet leafs h = some leaf) :
    labelsDFS root leafs (h :: stack) st =
      labelsDFS root leafs (leaf.Links ++ stack) (labelStep root h leaf st) := by
  rw [labelsDFS, dif_neg hv]
  split
  · rename_i heq; rw [hget] at heq; cases heq
  · rename_i leaf' heq
    rw [hget] at heq
    cases Option.some.inj heq
    rfl

theorem labelsDFS_inv (root : String) (leafs : List (String × DagLeaf)) :
    ∀ (stack : List String) (st st' : LabelState),
      labelsDFS root leafs stack st = Except.ok st' →
      1 ≤ st.counter →
      recKeys st.labels = (List.range (st.counter - 1)).map (fun i => toString (i + 1)) →
      root ∉ st.labels.map Prod.snd →
      1 ≤ st'.counter ∧
      recKeys st'.labels =
        (List.range (st'.counter - 1)).map (fun i => toString (i + 1)) ∧
      root ∉ st'.labels.map Prod.snd := by
  intro stack st
  induction stack, st using labelsDFS.induct root leafs with
  | case1 st =>
    intro st' hok hc hk hr
    rw [labelsDFS_nil] at hok
    cases hok
    exact ⟨hc, hk, hr⟩
  | case2 h stack st hv ih =>
    intro st' hok hc hk hr
    rw [labelsDFS_cons_visited root leafs h stack st hv] at hok
    exact ih st' hok hc hk hr
  | case3 h stack st hv hget =>
    intro st' hok hc hk hr
    rw [labelsDFS_cons_missing root leafs h stack st hv hget] at hok
    cases hok
  | case4 h stack st hv leaf hget ih =>
    intro st' hok hc hk hr
    rw [labelsDFS_cons_found root leafs h stack st leaf hv hget] at hok
    apply ih st' hok
    · unfold labelStep
      split
      · simpa using hc
      · simp
    · unfold labelStep
      split
    
      · exact hk
      · simp only [recKeys, List.map_append] at hk ⊢
        rw [hk]
        have h1 : st.counter + 1 - 1 = (st.counter - 1) + 1 := by omega
        rw [h1, List.range_succ, List.map_append]
        simp only [List.map_cons, List.map_nil]
        have h2 : st.counter - 1 + 1 = st.counter := by omega
        rw [h2]
    · unfold labelStep
      split
      · exact hr
      · rename_i hroot
        simp only [List.map_append, List.map_cons, List.map_nil]
        intro hmem
        rcases List.mem_append.mp hmem with hm | hm
        · exact hr hm
        · rcases List.mem_cons.mp hm with hm2 | hm2
          · exact hroot hm2.symm
          · cases hm2

theorem c5_labels_deterministic_contiguous (d d' : Dag) (n : Nat)
    (h : calculateLabels d = Except.ok (d', n)) :
    calculateLabels d' = Except.ok (d', n) ∧
    recKeys d'.Labels = (List.range n).map (fun i => toString (i + 1)) ∧
    d.Root ∉ d'.Labels.map Prod.snd ∧
    getLabel d' d'.Root = Except.ok "0" := by
  unfold calculateLabels at h
  split at h
  · cases h
  · rename_i st heq
    injection h with h2
    rw [Prod.ext_iff] at h2
    obtain ⟨hd', hn⟩ := h2
    have hinv := labelsDFS_inv d.Root d.Leafs [d.Root] ⟨[], [], 1⟩ st heq
      (by decide) (by simp [recKeys]) (by simp)
    obtain ⟨hc, hk, hr⟩ := hinv
    subst hd'
    subst hn
    refine ⟨?_, ?_, ?_, ?_⟩
    · unfold calculateLabels
      have : labelsDFS ({ d with Labels := st.labels } : Dag).Root
          ({ d with Labels := st.labels } : Dag).Leafs
          [({ d with Labels := st.labels } : Dag).Root] ⟨[], [], 1⟩ =
          Except.ok st := heq
      rw [this]
    · simpa using hk
    · simpa using hr
    · simp [getLabel]

def c5wLeafR : DagLeaf :=
  { Hash := "r", ItemName := "r", TypeF := LeafType.Directory,
    CurrentLinkCount := 2, Links := ["a", "b"] }

def c5wLeafA : DagLeaf := { Hash := "a", ItemName := "a", TypeF := LeafType.File }

def c5wLeafB : DagLeaf := { Hash := "b", ItemName := "b", TypeF := LeafType.File }

def c5wDag : Dag :=
  { Root := "r", Leafs := [("r", c5wLeafR), ("a", c5wLeafA), ("b", c5wLeafB)] }

def c5wDagL : Dag := { c5wDag with Labels := [("1", "a"), ("2", "b")] }

theorem c5_witness :
    calculateLabels c5wDag = Except.ok (c5wDagL, 2) ∧
    recKeys c5wDagL.Labels = (List.range 2).map (fun i => toString (i + 1)) ∧
    c5wDag.Root ∉ c5wDagL.Labels.map Prod.snd ∧
    getLabel c5wDagL c5wDagL.Root = Except.ok "0" := by
  have h : calculateLabels c5wDag = Except.ok (c5wDagL, 2) := by
    simp +decide [calculateLabels, labelsDFS_nil, labelsDFS_cons_visited,
      labelsDFS_cons_missing, labelsDFS_cons_found, labelStep, recGet,
      c5wDag, c5wDagL, c5wLeafR, c5wLeafA, c5wLeafB]
  have hmain := c5_labels_deterministic_contiguous c5wDag c5wDagL 2 h
  exact ⟨h, hmain.2.1, hmain.2.2.1, hmain.2.2.2⟩

theorem labelStep_visited (root h : String) (leaf : DagLeaf) (st : LabelState) :
    (labelStep root h leaf st).visited = h :: st.visited := by
  unfold labelStep
  split <;> rfl

def leafsInv (leafs : List (String × DagLeaf)) (visited extra : List String) : Prop :=
  ∀ v ∈ visited, ∃ leaf, recGet leafs v = some leaf ∧
    ∀ l ∈ leaf.Links, l ∈ visited ∨ l ∈ extra

theorem labelsDFS_closed (root : String) (leafs : List (String × DagLeaf)) :
    ∀ (stack : List String) (st st' : LabelState),
      labelsDFS root leafs stack st = Except.ok st' →
      (∀ v ∈ st.visited, v ∈ st'.visited) ∧
      (∀ x ∈ stack, x ∈ st'.visited) ∧
      (leafsInv leafs st.visited stack → leafsInv leafs st'.visited []) := by
  intro stack st
  induction stack, st using labelsDFS.induct root leafs with
  | case1 st =>
    intro st' hok
    rw [labelsDFS_nil] at hok
    cases hok
    exact ⟨fun v hv => hv, fun x hx => absurd hx (List.not_mem_nil x),
      fun hin v hv => by
        obtain ⟨leaf, hg, hl⟩ := hin v hv
        exact ⟨leaf, hg, fun l hml => hl l hml⟩⟩
  | case2 h stack st hv ih =>
    intro st' hok
    rw [labelsDFS_cons_visited root leafs h stack st hv] at hok
    obtain ⟨ihA, ihB, ihC⟩ := ih st' hok
    refine ⟨ihA, ?_, ?_⟩
    · intro x hx
      rcases List.mem_cons.mp hx with rfl | hx2
      · exact ihA x hv
      · exact ihB x hx2
    · intro hin
      apply ihC
      intro v hvv
      obtain ⟨leaf, hg, hl⟩ := hin v hvv
      refine ⟨leaf, hg, fun l hml => ?_⟩
      rcases hl l hml with hl1 | hl2
      · exact Or.inl hl1
      · rcases List.mem_cons.mp hl2 with rfl | hl3
        · exact Or.inl hv
        · exact Or.inr hl3
  | case3 h stack st hv hget =>
    intro st' hok
    rw [labelsDFS_cons_missing root leafs h stack st hv hget] at hok
    cases hok
  | case4 h stack st hv leaf hget ih =>
    intro st' hok
    rw [labelsDFS_cons_found root leafs h stack st leaf hv hget] at hok
    obtain ⟨ihA, ihB, ihC⟩ := ih st' hok
    have hvis := labelStep_visited root h leaf st
    have hsubA : ∀ v ∈ st.visited, v ∈ st'.visited := by
      intro v hvv
      apply ihA
      rw [hvis]
      exact List.mem_cons_of_mem h hvv
    refine ⟨hsubA, ?_, ?_⟩
    · intro x hx
      rcases List.mem_cons.mp hx with hxh | hx2
      · subst hxh
        apply ihA
        rw [hvis]
        exact List.mem_cons_self _ _
      · exact ihB x (List.mem_append.mpr (Or.inr hx2))
    · intro hin
      apply ihC
      rw [hvis]
      intro v hvv
      rcases List.mem_cons.mp hvv with rfl | hvv2
      · refine ⟨leaf, hget, fun l hml => ?_⟩
        exact Or.inr (List.mem_append.mpr (Or.inl hml))
      · obtain ⟨leaf', hg, hl⟩ := hin v hvv2
        refine ⟨leaf', hg, fun l hml => ?_⟩
        rcases hl l hml with hl1 | hl2
        · exact Or.inl (List.mem_cons_of_mem h hl1)
        · rcases List.mem_cons.mp hl2 with rfl | hl3
          · exact Or.inl (List.mem_cons_self _ _)
          · exact Or.inr (List.mem_append.mpr (Or.inr hl3))

theorem reach_mem_visited (leafs : List (String × DagLeaf)) (root : String)
    (visited : List String) (hfin : leafsInv leafs visited [])
    (hroot : root ∈ visited) :
    ∀ x, Reach leafs root x → x ∈ visited := by
  intro x hx
  induction hx with
  | refl => exact hroot
  | step hr hget hlink ih =>
    obtain ⟨leaf', hget', hlinks⟩ := hfin _ ih
    rw [hget] at hget'
    cases Option.some.inj hget'
    rcases hlinks _ hlink with h1 | h2
    · exact h1
    · cases h2

/-- C10: on any DAG in which some leaf reachable from `Root` has a link
absent from `Leafs`, `calculateLabels` reports the missing child as an
error rather than returning a label count. -/
theorem c10_reachable_dangling_link_errors (d : Dag) (h l : String)
    (leaf : DagLeaf) (hreach : Reach d.Leafs d.Root h)
    (hget : recGet d.Leafs h = some leaf) (hlink : l ∈ leaf.Links)
    (hmissing : recGet d.Leafs l = none) :
    ∃ e, calculateLabels d = Except.error e := by
  match hcalc : calculateLabels d with
  | .error e => exact ⟨e, rfl⟩
  | .ok p =>
    exfalso
    unfold calculateLabels at hcalc
    split at hcalc
    · cases hcalc
    · rename_i st heq
      obtain ⟨_, hstack, hclose⟩ := labelsDFS_closed d.Root d.Leafs [d.Root]
        ⟨[], [], 1⟩ st heq
      have hfin : leafsInv d.Leafs st.visited [] := by
        apply hclose
        intro v hv
        cases hv
      have hrootv : d.Root ∈ st.visited :=
        hstack d.Root (List.mem_cons_self _ _)
      have hhv : h ∈ st.visited :=
        reach_mem_visited d.Leafs d.Root st.visited hfin hrootv h hreach
      obtain ⟨leaf', hget', hlinks⟩ := hfin h hhv
      rw [hget] at hget'
      cases Option.some.inj hget'
      have hlv : l ∈ st.visited := by
        rcases hlinks l hlink with h1 | h2
        · exact h1
        · cases h2
      obtain ⟨leafL, hgetL, _⟩ := hfin l hlv
      rw [hmissing] at hgetL
      cases hgetL

def c10wLeaf : DagLeaf :=
  { Hash := "r", ItemName := "r", TypeF := LeafType.Directory,
    CurrentLinkCount := 1, Links := ["m"] }

def c10wDag : Dag := { Root := "r", Leafs := [("r", c10wLeaf)] }

theorem c10_witness :
    (∃ e, calculateLabels c10wDag = Except.error e) ∧
    calculateLabels c10wDag =
      Except.error "Child is missing when iterating DAG (hash: m)" :=
  ⟨c10_reachable_dangling_link_errors c10wDag "r" "m" c10wLeaf
      (Reach.refl "r") (by decide) (by decide) (by decide),
   by
    simp +decide [calculateLabels, labelsDFS_nil, labelsDFS_cons_visited,
      labelsDFS_cons_missing, labelsDFS_cons_found, labelStep, recGet, c10wDag,
      c10wLeaf]⟩

/-! ## C6: transmission ordering -/

def parentSeen (seq : List TransmissionPacket) : Prop :=
  ∀ (j : Nat) (hj : j < seq.length), 0 < j →
    ∃ p ∈ seq.take j, p.Leaf.Hash = (seq.get ⟨j, hj⟩).ParentHash

theorem recGet_hash_eq {leafs : List (String × DagLeaf)}
    (hkeys : ∀ e ∈ leafs, e.2.Hash = e.1) {k : String} {leaf : DagLeaf}
    (hget : recGet leafs k = some leaf) : leaf.Hash = k := by
  unfold recGet at hget
  match hfind : leafs.find? (fun e => e.1 = k) with
  | none => rw [hfind] at hget; cases hget
  | some e =>
    rw [hfind] at hget
    have hmem := List.mem_of_find?_eq_some hfind
    have hpred : e.1 = k := by simpa using List.find?_some hfind
    have hv : e.2 = leaf := by simpa using hget
    rw [← hv, ← hpred]
    exact hkeys e hmem

theorem processKids_spec (leafs : List (String × DagLeaf))
    (hkeys : ∀ e ∈ leafs, e.2.Hash = e.1) (current : String)
    (cps : List (String × ClassicTreeBranch)) :
    ∀ (kids visited : List String) (acc : List TransmissionPacket)
      (adds : List String),
      ∃ ext,
        (processKids leafs current cps kids visited acc adds).2.1 = acc ++ ext ∧
        (processKids leafs current cps kids visited acc adds).2.2 =
          adds ++ ext.map (fun p => p.Leaf.Hash) ∧
        ∀ p ∈ ext, p.ParentHash = current := by
  intro kids
  induction kids with
  | nil =>
    intro visited acc adds
    exact ⟨[], by simp [processKids], by simp [processKids], by simp⟩
  | cons child rest ih =>
    intro visited acc adds
    by_cases hv : child ∈ visited
    · simpa [processKids, hv] using ih visited acc adds
    · match hget : recGet leafs child with
      | none => simpa [processKids, hv, hget] using ih visited acc adds
      | some childLeaf =>
        have hunf : processKids leafs current cps (child :: rest) visited acc adds =
            processKids leafs current cps rest (child :: visited)
              (acc ++ [kidPacket cps current child childLeaf])
              (adds ++ [child]) := by
          simp only [processKids]
          rw [if_neg hv, hget]
        rw [hunf]
        obtain ⟨ext, h1, h2, h3⟩ := ih (child :: visited)
          (acc ++ [kidPacket cps current child childLeaf]) (adds ++ [child])
        refine ⟨kidPacket cps current child childLeaf :: ext, ?_, ?_, ?_⟩
        · rw [h1, List.append_assoc]; rfl
        · rw [h2, List.append_assoc]
          simp only [List.map_cons]
          have : (kidPacket cps current child childLeaf).Leaf.Hash = child :=
            recGet_hash_eq hkeys hget
          rw [this]
          rfl
        · intro p hp
          rcases List.mem_cons.mp hp with rfl | hp2
          · rfl
          · exact h3 p hp2

theorem parentSeen_append (acc ext : List TransmissionPacket)
    (hacc : parentSeen acc)
    (hext : ∀ p ∈ ext, ∃ q ∈ acc, q.Leaf.Hash = p.ParentHash) :
    parentSeen (acc ++ ext) := by
  intro j hj hpos
  by_cases hcase : j < acc.length
  · have hget : (acc ++ ext).get ⟨j, hj⟩ = acc.get ⟨j, hcase⟩ := by
      exact List.getElem_append_left hcase
    rw [hget]
    obtain ⟨p, hp, hph⟩ := hacc j hcase hpos
    refine ⟨p, ?_, hph⟩
    rw [List.take_append_eq_append_take]
    exact List.mem_append.mpr (Or.inl hp)
  · push_neg at hcase
    have hjlen : j - acc.length < ext.length := by
      have := hj
      simp only [List.length_append] at this
      omega
    have hget : (acc ++ ext).get ⟨j, hj⟩ = ext.get ⟨j - acc.length, hjlen⟩ := by
      exact List.getElem_append_right hcase
    rw [hget]
    obtain ⟨q, hq, hqh⟩ := hext _ (List.get_mem ext _ hjlen)
    refine ⟨q, ?_, hqh⟩
    rw [List.take_append_eq_append_take, List.take_of_length_le hcase]
    exact List.mem_append.mpr (Or.inl hq)

theorem seqBFS_nil (leafs : List (String × DagLeaf)) (visited : List String)
    (acc : List TransmissionPacket) : seqBFS leafs [] visited acc = acc := by
  rw [seqBFS]

theorem seqBFS_cons_missing (leafs : List (String × DagLeaf)) (current : String)
    (queue visited : List String) (acc : List TransmissionPacket)
    (hget : recGet leafs current = none) :
    seqBFS leafs (current :: queue) visited acc = seqBFS leafs queue visited acc := by
  rw [seqBFS]
  split
  · rfl
  · rename_i leaf heq; rw [hget] at heq; cases heq

theorem seqBFS_cons_leaf (leafs : List (String × DagLeaf)) (current : String)
    (queue visited : List String) (acc : List TransmissionPacket)
    (currentLeaf : DagLeaf) (hget : recGet leafs current = some currentLeaf) :
    seqBFS leafs (current :: queue) visited acc =
      (if currentLeaf.Links.isEmpty then seqBFS leafs queue visited acc
       else
        seqBFS leafs
          (queue ++ (processKids leafs current (seqChildProofs currentLeaf)
            (sortStrings currentLeaf.Links) visited acc []).2.2)
          (processKids leafs current (seqChildProofs currentLeaf)
            (sortStrings currentLeaf.Links) visited acc []).1
          (processKids leafs current (seqChildProofs currentLeaf)
            (sortStrings currentLeaf.Links) visited acc []).2.1) := by
  rw [seqBFS]
  split
  · rename_i heq; rw [hget] at heq; cases heq
  · rename_i leaf' heq
    rw [hget] at heq
    cases Option.some.inj heq
    rfl

theorem seqBFS_invariant (leafs : List (String × DagLeaf))
    (hkeys : ∀ e ∈ leafs, e.2.Hash = e.1) :
    ∀ (queue visited : List String) (acc : List TransmissionPacket),
      (∀ q ∈ queue, ∃ p ∈ acc, p.Leaf.Hash = q) →
      parentSeen acc →
      (∃ ext, seqBFS leafs queue visited acc = acc ++ ext) ∧
      parentSeen (seqBFS leafs queue visited acc) := by
  intro queue visited acc
  induction queue, visited, acc using seqBFS.induct leafs with
  | case1 visited acc =>
    intro _ hps
    rw [seqBFS_nil]
    exact ⟨⟨[], by simp⟩, hps⟩
  | case2 current queue visited acc hget ih =>
    intro hq hps
    rw [seqBFS_cons_missing leafs current queue visited acc hget]
    exact ih (fun q hqq => hq q (List.mem_cons_of_mem _ hqq)) hps
  | case3 current queue visited acc currentLeaf hget hempty ih =>
    intro hq hps
    rw [seqBFS_cons_leaf leafs current queue visited acc currentLeaf hget,
      if_pos hempty]
    exact ih (fun q hqq => hq q (List.mem_cons_of_mem _ hqq)) hps
  | case4 current queue visited acc currentLeaf hget hempty r ih =>
    intro hq hps
    rw [seqBFS_cons_leaf leafs current queue visited acc currentLeaf hget,
      if_neg hempty]
    obtain ⟨ext, h1, h2, h3⟩ := processKids_spec leafs hkeys current
      (seqChildProofs currentLeaf) (sortStrings currentLeaf.Links) visited acc []
    have hcur : ∃ p ∈ acc, p.Leaf.Hash = current :=
      hq current (List.mem_cons_self _ _)
    have hps' : parentSeen (acc ++ ext) := by
      apply parentSeen_append acc ext hps
      intro p hp
      obtain ⟨pc, hpc, hpch⟩ := hcur
      exact ⟨pc, hpc, by rw [hpch, h3 p hp]⟩
    have hq' : ∀ q ∈ queue ++ (processKids leafs current (seqChildProofs currentLeaf)
        (sortStrings currentLeaf.Links) visited acc []).2.2,
        ∃ p ∈ (processKids leafs current (seqChildProofs currentLeaf)
          (sortStrings currentLeaf.Links) visited acc []).2.1,
          p.Leaf.Hash = q := by
      intro q hqq
      rw [h1]
      rcases List.mem_append.mp hqq with hq1 | hq2
      · obtain ⟨p, hp, hph⟩ := hq q (List.mem_cons_of_mem _ hq1)
        exact ⟨p, List.mem_append.mpr (Or.inl hp), hph⟩
      · rw [h2] at hq2
        simp only [List.nil_append] at hq2
        obtain ⟨p, hp, hph⟩ := List.mem_map.mp hq2
        exact ⟨p, List.mem_append.mpr (Or.inr hp), hph⟩
    have := ih hq' (by rw [h1]; exact hps')
    obtain ⟨⟨ext2, hext2⟩, hpsfin⟩ := this
    refine ⟨⟨ext ++ ext2, ?_⟩, hpsfin⟩
    rw [hext2, h1, List.append_assoc]

/-- C6: in the packet list of `getLeafSequence` on a DAG whose `Leafs`
record keys each leaf under its own `Hash`, the first packet is the root
with `ParentHash = ""`, and every later packet's `ParentHash` equals the
`Leaf.Hash` of some strictly earlier packet, so replaying packets in
emission order always finds the parent already applied. -/
theorem c6_leaf_sequence_parent_order (d : Dag)
    (hkeys : ∀ e ∈ d.Leafs, e.2.Hash = e.1) :
    (∀ (h0 : 0 < (getLeafSequence d).length),
      ((getLeafSequence d).get ⟨0, h0⟩).ParentHash = "" ∧
      ((getLeafSequence d).get ⟨0, h0⟩).Leaf.Hash = d.Root) ∧
    parentSeen (getLeafSequence d) := by
  unfold getLeafSequence
  match hget : recGet d.Leafs d.Root with
  | none =>
    refine ⟨?_, ?_⟩
    · intro h0; simp at h0
    · intro j hj _; simp at hj
  | some rootLeaf =>
    dsimp only
    have hroot : rootLeaf.Hash = d.Root := recGet_hash_eq hkeys hget
    obtain ⟨⟨ext, hext⟩, hps⟩ := seqBFS_invariant d.Leafs hkeys [d.Root] [d.Root]
      [{ Leaf := rootLeaf, ParentHash := "", proofs := [] }]
      (by
        intro q hqq
        rcases List.mem_cons.mp hqq with rfl | hq2
        · exact ⟨{ Leaf := rootLeaf, ParentHash := "", proofs := [] },
            List.mem_singleton.mpr rfl, hroot⟩
        · cases hq2)
      (by
        intro j hj hpos
        simp only [List.length_singleton] at hj
        omega)
    refine ⟨?_, hps⟩
    intro h0
    have h00 := List.get_of_eq hext ⟨0, h0⟩
    exact ⟨by rw [h00]; rfl, by rw [h00]; exact hroot⟩

def c6wLeafR : DagLeaf :=
  { Hash := "r", ItemName := "r", TypeF := LeafType.Directory,
    CurrentLinkCount := 1, Links := ["a"] }

def c6wLeafA : DagLeaf := { Hash := "a", ItemName := "a", TypeF := LeafType.File }

def c6wDag : Dag := { Root := "r", Leafs := [("r", c6wLeafR), ("a", c6wLeafA)] }

theorem c6_witness :
    getLeafSequence c6wDag =
      [{ Leaf := c6wLeafR, ParentHash := "", proofs := [] },
       { Leaf := c6wLeafA, ParentHash := "r", proofs := [] }] ∧
    parentSeen (getLeafSequence c6wDag) :=
  ⟨by
    simp +decide [getLeafSequence, seqBFS_nil, seqBFS_cons_missing,
      seqBFS_cons_leaf, processKids, kidPacket, sortStrings, stableSort,
      stableInsert, seqChildProofs, buildChildProofs, recGet, c6wDag,
      c6wLeafR, c6wLeafA],
   (c6_leaf_sequence_parent_order c6wDag (by decide)).2⟩

/-! ## C9: partial DAGs -/


/-- A parent-map chain from `s` back to `root`, derivable in at most `n`
steps. -/
inductive PChainN (P : List (String × String)) (root : String) : String → Nat → Prop
  | root (n : Nat) : PChainN P root root n
  | step {c par : String} {n : Nat} :
      recGet P c = some par → PChainN P root par n → PChainN P root c (n + 1)

theorem recGet_append_some {α : Type} {P : List (String × α)} {c : String}
    {v : α} (Q : List (String × α)) (h : recGet P c = some v) :
    recGet (P ++ Q) c = some v := by
  unfold recGet at h ⊢
  rw [List.find?_append]
  match hf : P.find? (fun e => e.1 = c) with
  | none => rw [hf] at h; cases h
  | some e => rw [hf] at h; rw [hf]; exact h

theorem recGet_eq_none_of_not_mem_keys {α : Type} {P : List (String × α)}
    {c : String} (h : c ∉ P.map Prod.fst) : recGet P c = none := by
  unfold recGet
  match hf : P.find? (fun e => e.1 = c) with
  | none => rw [hf]; rfl
  | some e =>
    exfalso
    have hmem := List.mem_of_find?_eq_some hf
    have hpred : e.1 = c := by simpa using List.find?_some hf
    exact h (hpred ▸ List.mem_map_of_mem Prod.fst hmem)

theorem recGet_append_fresh {α : Type} {P : List (String × α)} {c : String}
    (v : α) (h : recGet P c = none) :
    recGet (P ++ [(c, v)]) c = some v := by
  unfold recGet at h ⊢
  rw [List.find?_append]
  match hf : P.find? (fun e => e.1 = c) with
  | some e => rw [hf] at h; cases h
  | none => rw [hf]; simp

theorem recGet_append_ne {α : Type} {P : List (String × α)} {c k : String}
    (v : α) (hne : k ≠ c) (h : recGet P k = none) :
    recGet (P ++ [(c, v)]) k = none := by
  unfold recGet at h ⊢
  rw [List.find?_append]
  match hf : P.find? (fun e => e.1 = k) with
  | some e => rw [hf] at h; cases h
  | none => rw [hf]; simp [Ne.symm hne]

theorem PChainN.mono_n {P : List (String × String)} {root s : String} {n m : Nat}
    (h : PChainN P root s n) (hle : n ≤ m) : PChainN P root s m := by
  induction h generalizing m with
  | root _ => exact PChainN.root m
  | step hget hch ih =>
    match m, hle with
    | m + 1, hle => exact PChainN.step hget (ih (by omega))

theorem PChainN.mono_P {P : List (String × String)} (Q : List (String × String))
    {root s : String} {n : Nat}
    (h : PChainN P root s n) : PChainN (P ++ Q) root s n := by
  induction h with
  | root n => exact PChainN.root n
  | step hget hch ih => exact PChainN.step (recGet_append_some _ hget) ih

theorem recGet_mem {α : Type} {P : List (String × α)} {c : String} {v : α}
    (h : recGet P c = some v) : (c, v) ∈ P := by
  unfold recGet at h
  match hf : P.find? (fun e => e.1 = c) with
  | none => rw [hf] at h; cases h
  | some e =>
    rw [hf] at h
    have hmem := List.mem_of_find?_eq_some hf
    have hpred : e.1 = c := by simpa using List.find?_some hf
    have hv : e.2 = v := by simpa using h
    have : e = (c, v) := by
      cases e; simp_all
    exact this ▸ hmem

theorem pathBFS_nil (leafs : List (String × DagLeaf)) (queued : List String)
    (parents : List (String × String)) :
    pathBFS leafs [] queued parents = .ok parents := by
  rw [pathBFS]

theorem pathBFS_cons_missing (leafs : List (String × DagLeaf))
    (current : String) (queue queued : List String)
    (parents : List (String × String))
    (hget : recGet leafs current = none) :
    pathBFS leafs (current :: queue) queued parents =
      .error ("TypeError: cannot read Links of missing leaf " ++ current) := by
  rw [pathBFS]
  split
  · rfl
  · rename_i leaf heq; rw [hget] at heq; cases heq

theorem pathBFS_cons_found (leafs : List (String × DagLeaf))
    (current : String) (queue queued : List String)
    (parents : List (String × String)) (leaf : DagLeaf)
    (hget : recGet leafs current = some leaf) :
    pathBFS leafs (current :: queue) queued parents =
      pathBFS leafs
        (queue ++ (pathKids current leaf.Links queued [] parents).2.1)
        (pathKids current leaf.Links queued [] parents).1
        (pathKids current leaf.Links queued [] parents).2.2 := by
  rw [pathBFS]
  split
  · rename_i heq; rw [hget] at heq; cases heq
  · rename_i leaf' heq; rw [hget] at heq; cases Option.some.inj heq; rfl

/-- Invariant of the parent-map BFS relating the queued set and the parent
map: every recorded edge points from a present parent to one of its links,
recorded children are queued nonempty strings, every queued hash has a
parent chain back to the root within `parents.length` steps, the root is
queued and never recorded as a child. -/
def pathInv (leafs : List (String × DagLeaf)) (root : String)
    (queued : List String) (parents : List (String × String)) : Prop :=
  (∀ e ∈ parents,
      (∃ leaf, recGet leafs e.2 = some leaf ∧ e.1 ∈ leaf.Links) ∧
      e.1 ∈ queued ∧ e.1 ≠ "") ∧
  (∀ q ∈ queued, PChainN parents root q parents.length) ∧
  root ∈ queued ∧
  recGet parents root = none

/-- Every queued hash is either still pending in the queue or has already
been popped, in which case its leaf was found and all its children queued. -/
def popClosure (leafs : List (String × DagLeaf))
    (queued queue : List String) : Prop :=
  ∀ q ∈ queued, q ∈ queue ∨
    ∃ leaf, recGet leafs q = some leaf ∧ ∀ l ∈ leaf.Links, l ∈ queued

theorem pathKids_spec (leafs : List (String × DagLeaf)) (root : String)
    (current : String) (leafC : DagLeaf)
    (hcur : recGet leafs current = some leafC) :
    ∀ (kids queued adds : List String) (parents : List (String × String)),
      (∀ c ∈ kids, c ∈ leafC.Links) →
      (∀ c ∈ kids, c ≠ "") →
      current ∈ queued →
      pathInv leafs root queued parents →
      pathInv leafs root (pathKids current kids queued adds parents).1
          (pathKids current kids queued adds parents).2.2 ∧
      (∀ q ∈ queued, q ∈ (pathKids current kids queued adds parents).1) ∧
      (∀ c ∈ kids, c ∈ (pathKids current kids queued adds parents).1) ∧
      (∀ a ∈ (pathKids current kids queued adds parents).2.1,
        a ∈ adds ∨ a ∈ (pathKids current kids queued adds parents).1) ∧
      (∀ q ∈ (pathKids current kids queued adds parents).1,
        q ∈ queued ∨ q ∈ (pathKids current kids queued adds parents).2.1) ∧
      (∀ a ∈ adds, a ∈ (pathKids current kids queued adds parents).2.1) := by
  intro kids
  induction kids with
  | nil =>
    intro queued adds parents _ _ _ hinv
    refine ⟨hinv, ?_, ?_, ?_, ?_, ?_⟩
    · intro q hq; simpa [pathKids] using hq
    · intro c hc; cases hc
    · intro a ha; left; simpa [pathKids] using ha
    · intro q hq; left; simpa [pathKids] using hq
    · intro a ha; simpa [pathKids] using ha
  | cons child rest ih =>
    intro queued adds parents hkids hkne hcurQ hinv
    by_cases hq : child ∈ queued
    · have hunf : pathKids current (child :: rest) queued adds parents =
          pathKids current rest queued adds parents := by
        simp only [pathKids]; rw [if_pos hq]
      rw [hunf]
      have hrest := ih queued adds parents
        (fun c hc => hkids c (List.mem_cons_of_mem _ hc))
        (fun c hc => hkne c (List.mem_cons_of_mem _ hc)) hcurQ hinv
      refine ⟨hrest.1, hrest.2.1, ?_, hrest.2.2.2.1, hrest.2.2.2.2⟩
      intro c hc
      rcases List.mem_cons.mp hc with hceq | hcr
      · exact hceq ▸ hrest.2.1 child hq
      · exact hrest.2.2.1 c hcr
    · have hunf : pathKids current (child :: rest) queued adds parents =
          pathKids current rest (child :: queued) (adds ++ [child])
            (parents ++ [(child, current)]) := by
        simp only [pathKids]; rw [if_neg hq]
      rw [hunf]
      obtain ⟨hA, hB, hrootQ, hrootN⟩ := hinv
      have hfresh : recGet parents child = none := by
        apply recGet_eq_none_of_not_mem_keys
        intro hmem
        rcases List.mem_map.mp hmem with ⟨e, he, hfst⟩
        exact hq (hfst ▸ (hA e he).2.1)
      have hinv' : pathInv leafs root (child :: queued)
          (parents ++ [(child, current)]) := by
        refine ⟨?_, ?_, List.mem_cons_of_mem _ hrootQ, ?_⟩
        · intro e he
          rcases List.mem_append.mp he with he | he
          · obtain ⟨hl, hqd, hne⟩ := hA e he
            exact ⟨hl, List.mem_cons_of_mem _ hqd, hne⟩
          · have heq : e = (child, current) := List.mem_singleton.mp he
            subst heq
            exact ⟨⟨leafC, hcur, hkids child (List.mem_cons_self _ _)⟩,
              List.mem_cons_self _ _, hkne child (List.mem_cons_self _ _)⟩
        · intro q hqm
          rcases List.mem_cons.mp hqm with hqe | hqo
          · have hcurCh := (hB current hcurQ).mono_P [(child, current)]
            have hstep := PChainN.step
              (recGet_append_fresh current hfresh) hcurCh
            simpa [hqe] using hstep
          · have := (hB q hqo).mono_P [(child, current)]
            exact this.mono_n (by simp)
        · have hne : root ≠ child := by
            intro h; exact hq (h ▸ hrootQ)
          exact recGet_append_ne current hne hrootN
      have hrest := ih (child :: queued) (adds ++ [child])
        (parents ++ [(child, current)])
        (fun c hc => hkids c (List.mem_cons_of_mem _ hc))
        (fun c hc => hkne c (List.mem_cons_of_mem _ hc))
        (List.mem_cons_of_mem _ hcurQ) hinv'
      have hchildAdds := hrest.2.2.2.2.2 child
        (List.mem_append.mpr (Or.inr (List.mem_singleton.mpr rfl)))
      refine ⟨hrest.1, ?_, ?_, ?_, ?_, ?_⟩
      · intro q hqm
        exact hrest.2.1 q (List.mem_cons_of_mem _ hqm)
      · intro c hc
        rcases List.mem_cons.mp hc with hceq | hcr
        · exact hceq ▸ hrest.2.1 child (List.mem_cons_self _ _)
        · exact hrest.2.2.1 c hcr
      · intro a ha
        rcases hrest.2.2.2.1 a ha with hadds | hin
        · rcases List.mem_append.mp hadds with h1 | h2
          · exact Or.inl h1
          · right
            have ha2 : a = child := List.mem_singleton.mp h2
            exact ha2 ▸ hrest.2.1 child (List.mem_cons_self _ _)
        · exact Or.inr hin
      · intro q hqm
        rcases hrest.2.2.2.2.1 q hqm with hold | hnew
        · rcases List.mem_cons.mp hold with hqc | hqo
          · exact Or.inr (hqc ▸ hchildAdds)
          · exact Or.inl hqo
        · exact Or.inr hnew
      · intro a ha
        exact hrest.2.2.2.2.2 a
          (List.mem_append.mpr (Or.inl ha))

theorem pathBFS_spec (leafs : List (String × DagLeaf)) (root : String)
    (hlinksne : ∀ e ∈ leafs, ∀ l ∈ e.2.Links, l ≠ "") :
    ∀ (queue queued : List String) (parents : List (String × String)),
      (∀ q ∈ queue, q ∈ queued) →
      pathInv leafs root queued parents →
      popClosure leafs queued queue →
      ∀ P', pathBFS leafs queue queued parents = .ok P' →
      ∃ queuedF, (∀ q ∈ queued, q ∈ queuedF) ∧
        pathInv leafs root queuedF P' ∧ popClosure leafs queuedF [] := by
  intro queue queued parents
  induction queue, queued, parents using pathBFS.induct leafs with
  | case1 queued parents =>
    intro _ hinv hpc P' hok
    rw [pathBFS_nil] at hok
    have hP : parents = P' := Except.ok.inj hok
    subst hP
    exact ⟨queued, fun q hq => hq, hinv, fun q hq => by
      rcases hpc q hq with h | h
      · cases h
      · exact Or.inr h⟩
  | case2 current queue queued parents hget =>
    intro hq hinv hpc P' hok
    rw [pathBFS_cons_missing leafs current queue queued parents hget] at hok
    cases hok
  | case3 current queue queued parents leaf hget r ih =>
    intro hq hinv hpc P' hok
    rw [pathBFS_cons_found leafs current queue queued parents leaf hget] at hok
    have hcurQ : current ∈ queued := hq current (List.mem_cons_self _ _)
    have hkne : ∀ c ∈ leaf.Links, c ≠ "" :=
      fun c hc => hlinksne (current, leaf) (recGet_mem hget) c hc
    have hpk := pathKids_spec leafs root current leaf hget leaf.Links queued []
      parents (fun c hc => hc) hkne hcurQ hinv
    have hq' : ∀ q ∈ queue ++
        (pathKids current leaf.Links queued [] parents).2.1,
        q ∈ (pathKids current leaf.Links queued [] parents).1 := by
      intro q hqm
      rcases List.mem_append.mp hqm with h1 | h2
      · exact hpk.2.1 q (hq q (List.mem_cons_of_mem _ h1))
      · rcases hpk.2.2.2.1 q h2 with h | h
        · cases h
        · exact h
    have hpc' : popClosure leafs (pathKids current leaf.Links queued [] parents).1
        (queue ++ (pathKids current leaf.Links queued [] parents).2.1) := by
      intro q hqm
      rcases hpk.2.2.2.2.1 q hqm with hold | hnew
      · rcases hpc q hold with hpend | hdone
        · rcases List.mem_cons.mp hpend with hqc | hqq
          · right
            refine ⟨leaf, hqc ▸ hget, ?_⟩
            intro l hl
            exact hpk.2.2.1 l hl
          · exact Or.inl (List.mem_append.mpr (Or.inl hqq))
        · obtain ⟨lf, hlf, hsub⟩ := hdone
          exact Or.inr ⟨lf, hlf, fun l hl => hpk.2.1 l (hsub l hl)⟩
      · exact Or.inl (List.mem_append.mpr (Or.inr hnew))
    obtain ⟨queuedF, hsub, hinvF, hpcF⟩ := ih hq' hpk.1 hpc' P' hok
    exact ⟨queuedF, fun q hqm => hsub q (hpk.2.1 q hqm), hinvF, hpcF⟩

theorem chase_spec {P : List (String × String)} {root : String}
    (hroot0 : recGet P root = none) (hrootne : root ≠ "")
    (hkeysne : ∀ e ∈ P, e.1 ≠ "") :
    ∀ {s : String} {n : Nat}, PChainN P root s n →
    ∀ fuel, n < fuel →
      (chase P fuel s).head? = some s ∧
      (chase P fuel s).getLast? = some root ∧
      List.Chain' (fun a b => recGet P a = some b) (chase P fuel s) := by
  intro s n hch
  induction hch with
  | root n =>
    intro fuel hfuel
    match fuel, hfuel with
    | f + 1, _ =>
      have : chase P (f + 1) root = [root] := by
        unfold chase
        rw [if_neg hrootne, hroot0]
      rw [this]
      exact ⟨rfl, rfl, List.chain'_singleton root⟩
  | step hget hch ih =>
    rename_i c par n
    intro fuel hfuel
    match fuel, hfuel with
    | f + 1, hfuel =>
      have hcne : c ≠ "" := hkeysne (c, par) (recGet_mem hget)
      have hunf : chase P (f + 1) c = c :: chase P f par := by
        conv_lhs => rw [chase]
        rw [if_neg hcne, hget]
      obtain ⟨hhd, hlast, hchain⟩ := ih f (by omega)
      rw [hunf]
      refine ⟨rfl, ?_, ?_⟩
      · match hc : chase P f par with
        | [] => rw [hc] at hhd; cases hhd
        | a :: t =>
          rw [hc] at hlast
          rw [List.getLast?_cons_cons]
          exact hlast
      · rw [List.chain'_cons']
        refine ⟨?_, hchain⟩
        intro y hy
        rw [hhd] at hy
        cases Option.some.inj hy
        exact hget

theorem chase_present (leafs : List (String × DagLeaf))
    {P : List (String × String)}
    (hA : ∀ e ∈ P, ∃ leaf, recGet leafs e.2 = some leaf) :
    ∀ (fuel : Nat) (s : String), (∃ leaf, recGet leafs s = some leaf) →
      ∀ x ∈ chase P fuel s, ∃ leaf, recGet leafs x = some leaf := by
  intro fuel
  induction fuel with
  | zero => intro s _ x hx; cases hx
  | succ f ih =>
    intro s hs x hx
    unfold chase at hx
    by_cases hse : s = ""
    · rw [if_pos hse] at hx; cases hx
    · rw [if_neg hse] at hx
      rcases List.mem_cons.mp hx with hxs | hxr
      · exact hxs ▸ hs
      · match hg : recGet P s with
        | none => rw [hg] at hxr; cases hxr
        | some par =>
          rw [hg] at hxr
          exact ih par (hA (s, par) (recGet_mem hg)) x hxr

theorem mem_addUnique_left {s : List String} {x : String} (y : String)
    (h : x ∈ s) : x ∈ addUnique s y := by
  unfold addUnique
  split
  · exact h
  · exact List.mem_append.mpr (Or.inl h)

theorem mem_addUnique_self (s : List String) (y : String) :
    y ∈ addUnique s y := by
  unfold addUnique
  split
  · assumption
  · exact List.mem_append.mpr (Or.inr (List.mem_singleton.mpr rfl))

theorem mem_of_addUnique {s : List String} {x y : String}
    (h : x ∈ addUnique s y) : x ∈ s ∨ x = y := by
  unfold addUnique at h
  split at h
  · exact Or.inl h
  · rcases List.mem_append.mp h with h1 | h2
    · exact Or.inl h1
    · exact Or.inr (List.mem_singleton.mp h2)

theorem mem_foldl_addUnique_left {x : String} :
    ∀ (l s : List String), x ∈ s → x ∈ l.foldl addUnique s := by
  intro l
  induction l with
  | nil => intro s h; exact h
  | cons a t ih =>
    intro s h
    exact ih (addUnique s a) (mem_addUnique_left a h)

theorem mem_foldl_addUnique {x : String} :
    ∀ (l s : List String), x ∈ l → x ∈ l.foldl addUnique s := by
  intro l
  induction l with
  | nil => intro s h; cases h
  | cons a t ih =>
    intro s h
    rcases List.mem_cons.mp h with h1 | h2
    · exact h1 ▸ mem_foldl_addUnique_left t (addUnique s a) (mem_addUnique_self s a)
    · exact ih (addUnique s a) h2

theorem mem_of_foldl_addUnique {x : String} :
    ∀ (l s : List String), x ∈ l.foldl addUnique s → x ∈ s ∨ x ∈ l := by
  intro l
  induction l with
  | nil => intro s h; exact Or.inl h
  | cons a t ih =>
    intro s h
    rcases ih (addUnique s a) h with h1 | h2
    · rcases mem_of_addUnique h1 with h3 | h4
      · exact Or.inl h3
      · exact Or.inr (h4 ▸ List.mem_cons_self _ _)
    · exact Or.inr (List.mem_cons_of_mem _ h2)

theorem recGet_isSome_of_mem {α : Type} {r : List (String × α)} {k : String}
    {v : α} (h : (k, v) ∈ r) : (recGet r k).isSome := by
  unfold recGet
  have hfs : (r.find? (fun e => e.1 = k)).isSome :=
    List.find?_isSome.mpr ⟨(k, v), h, by simp⟩
  match hf : r.find? (fun e => e.1 = k) with
  | some e => rw [hf]; rfl
  | none => rw [hf] at hfs; cases hfs

theorem reach_mem_closed {leafs : List (String × DagLeaf)} {root : String}
    {queuedF : List String} (hroot : root ∈ queuedF)
    (hclo : popClosure leafs queuedF []) :
    ∀ {x : String}, Reach leafs root x → x ∈ queuedF := by
  intro x hr
  induction hr with
  | refl => exact hroot
  | step hrab hget hlink ih =>
    rcases hclo _ ih with h | ⟨lf, hlf, hsub⟩
    · cases h
    · rw [hget] at hlf
      cases Option.some.inj hlf
      exact hsub _ hlink

theorem getPartialFold_error (dag : Dag) (e : String) :
    ∀ S : List String,
      S.foldl (getPartialStep dag) (.error e) =
        (.error e : Except String (List String)) := by
  intro S
  induction S with
  | nil => rfl
  | cons a t ih => rw [List.foldl_cons]; exact ih

theorem getPartialStep_found (dag : Dag) (rel : List String) {s : String}
    {leafS : DagLeaf} (hg : recGet dag.Leafs s = some leafS)
    {chain : List String} (hfpr : findPathToRoot dag s = .ok chain) :
    getPartialStep dag (.ok rel) s =
      .ok (chain.foldl addUnique (addUnique rel s)) := by
  unfold getPartialStep
  rw [hg]
  dsimp only
  rw [hfpr]

theorem getPartialFold_spec (dag : Dag) {Pf : List (String × String)}
    (hbfs : pathBFS dag.Leafs [dag.Root] [dag.Root] [] = .ok Pf)
    (hA : ∀ e ∈ Pf, ∃ leaf, recGet dag.Leafs e.2 = some leaf) :
    ∀ (S rel relF : List String),
      S.foldl (getPartialStep dag) (.ok rel) = .ok relF →
      (∀ x ∈ rel, x ∈ relF) ∧
      ((∀ x ∈ rel, ∃ leaf, recGet dag.Leafs x = some leaf) →
        ∀ x ∈ relF, ∃ leaf, recGet dag.Leafs x = some leaf) ∧
      (∀ s ∈ S, s ∈ relF ∧ (∃ leaf, recGet dag.Leafs s = some leaf) ∧
        ∀ x ∈ chase Pf (Pf.length + 1) s, x ∈ relF) := by
  intro S
  induction S with
  | nil =>
    intro rel relF hfold
    have h : rel = relF := Except.ok.inj hfold
    subst h
    exact ⟨fun x hx => hx, fun h x hx => h x hx, fun s hs => absurd hs (by simp)⟩
  | cons s t ih =>
    intro rel relF hfold
    rw [List.foldl_cons] at hfold
    match hg : recGet dag.Leafs s with
    | none =>
      have hstep : getPartialStep dag (.ok rel) s =
          .error ("Leaf not found: " ++ s) := by
        unfold getPartialStep
        rw [hg]
      rw [hstep, getPartialFold_error] at hfold
      cases hfold
    | some leafS =>
      have hfpr : findPathToRoot dag s = .ok (chase Pf (Pf.length + 1) s) := by
        unfold findPathToRoot
        rw [hbfs]
      rw [getPartialStep_found dag rel hg hfpr] at hfold
      obtain ⟨hmono, hpres, heach⟩ := ih _ _ hfold
      have hrel' : ∀ x ∈ rel,
          x ∈ (chase Pf (Pf.length + 1) s).foldl addUnique (addUnique rel s) :=
        fun x hx => mem_foldl_addUnique_left _ _ (mem_addUnique_left s hx)
      refine ⟨fun x hx => hmono x (hrel' x hx), ?_, ?_⟩
      · intro hrelp
        apply hpres
        intro x hx
        rcases mem_of_foldl_addUnique _ _ hx with h1 | h2
        · rcases mem_of_addUnique h1 with h3 | h4
          · exact hrelp x h3
          · exact h4 ▸ ⟨leafS, hg⟩
        · exact chase_present dag.Leafs hA _ s ⟨leafS, hg⟩ x h2
      · intro s' hs'
        rcases List.mem_cons.mp hs' with h1 | h2
        · subst h1
          refine ⟨?_, ⟨leafS, hg⟩, ?_⟩
          · exact hmono _ (mem_foldl_addUnique_left _ _ (mem_addUnique_self rel s'))
          · intro x hx
            exact hmono x (mem_foldl_addUnique _ _ hx)
        · exact heach s' h2

theorem getPartial_ok_fold (dag : Dag) (S : List String) (pl : Bool) (p : Dag)
    (hok : getPartial dag S pl = .ok p) :
    ∃ relF, S.foldl (getPartialStep dag) (.ok [dag.Root]) = .ok relF ∧
      p = { Root := dag.Root, Labels := [],
            Leafs := relF.filterMap (fun h =>
              (recGet dag.Leafs h).map (fun leaf =>
                (h, pruneClone relF pl leaf))) } := by
  unfold getPartial at hok
  by_cases hS : S.isEmpty
  · rw [if_pos hS] at hok; cases hok
  · rw [if_neg hS] at hok
    match hf : S.foldl (getPartialStep dag) (.ok [dag.Root]) with
    | .error e => rw [hf] at hok; cases hok
    | .ok relF =>
      rw [hf] at hok
      exact ⟨relF, rfl, (Except.ok.inj hok).symm⟩

theorem getPartial_ok_bfs (dag : Dag) (S : List String) (pl : Bool) (p : Dag)
    (hok : getPartial dag S pl = .ok p) :
    ∃ Pf, pathBFS dag.Leafs [dag.Root] [dag.Root] [] = .ok Pf := by
  obtain ⟨relF, hf, _⟩ := getPartial_ok_fold dag S pl p hok
  match S with
  | [] =>
    exfalso
    unfold getPartial at hok
    simp at hok
  | s :: t =>
    rw [List.foldl_cons] at hf
    match hb : pathBFS dag.Leafs [dag.Root] [dag.Root] [] with
    | .ok Pf => exact ⟨Pf, rfl⟩
    | .error e =>
      exfalso
      have hfpr : findPathToRoot dag s = .error e := by
        unfold findPathToRoot
        rw [hb]
      have hstep : ∃ e', getPartialStep dag (.ok [dag.Root]) s = .error e' := by
        match hg : recGet dag.Leafs s with
        | none =>
          refine ⟨"Leaf not found: " ++ s, ?_⟩
          unfold getPartialStep
          dsimp only
          rw [hg]
        | some lf =>
          refine ⟨e, ?_⟩
          unfold getPartialStep
          dsimp only
          rw [hg]
          dsimp only
          rw [hfpr]
      obtain ⟨e', hstep⟩ := hstep
      rw [hstep, getPartialFold_error] at hf
      cases hf

theorem pathBFS_ok_first (leafs : List (String × DagLeaf)) (current : String)
    (queue queued : List String) (parents Pf : List (String × String))
    (hok : pathBFS leafs (current :: queue) queued parents = .ok Pf) :
    ∃ leaf, recGet leafs current = some leaf := by
  match hg : recGet leafs current with
  | some leaf => exact ⟨leaf, rfl⟩
  | none =>
    rw [pathBFS_cons_missing leafs current queue queued parents hg] at hok
    cases hok

/-- C9 (amended): whenever `getPartial` succeeds, the result keeps the
requested leaves together with one full link path from the root down to
each reachable requested leaf (not every ancestor, see the
counterexample); and with `pruneLinks = true` the pruned result is not
partial: no kept leaf links outside the kept set. -/
theorem c9_partial_paths_and_prune (d : Dag) (S : List String) (p q : Dag)
    (hlinksne : ∀ e ∈ d.Leafs, ∀ l ∈ e.2.Links, l ≠ "")
    (hrootne : d.Root ≠ "")
    (hok : getPartial d S false = .ok p)
    (hokq : getPartial d S true = .ok q) :
    (∀ s ∈ S, Reach d.Leafs d.Root s →
      ∃ path, path.head? = some d.Root ∧ path.getLast? = some s ∧
        List.Chain' (linksTo d.Leafs) path ∧
        ∀ x ∈ path, x ∈ recKeys p.Leafs) ∧
    isPartial q = false := by
  obtain ⟨Pf, hbfs⟩ := getPartial_ok_bfs d S false p hok
  have hinv0 : pathInv d.Leafs d.Root [d.Root] [] := by
    refine ⟨fun e he => absurd he (by simp), ?_, List.mem_singleton.mpr rfl, rfl⟩
    intro x hx
    have hxr : x = d.Root := List.mem_singleton.mp hx
    exact hxr ▸ PChainN.root 0
  have hpc0 : popClosure d.Leafs [d.Root] [d.Root] := fun x hx => Or.inl hx
  obtain ⟨queuedF, hsubF, hinvF, hcloF⟩ := pathBFS_spec d.Leafs d.Root hlinksne
    [d.Root] [d.Root] [] (fun x hx => hx) hinv0 hpc0 Pf hbfs
  obtain ⟨hA, hB, hrootQF, hrootNone⟩ := hinvF
  have hAp : ∀ e ∈ Pf, ∃ leaf, recGet d.Leafs e.2 = some leaf := by
    intro e he
    obtain ⟨⟨lf, h1, _⟩, _, _⟩ := hA e he
    exact ⟨lf, h1⟩
  have hkeysne : ∀ e ∈ Pf, e.1 ≠ "" := fun e he => (hA e he).2.2
  have hrootpres : ∃ leaf, recGet d.Leafs d.Root = some leaf :=
    pathBFS_ok_first d.Leafs d.Root [] [d.Root] [] Pf hbfs
  have hinitpres : ∀ x ∈ [d.Root], ∃ leaf, recGet d.Leafs x = some leaf := by
    intro x hx
    have hxr : x = d.Root := List.mem_singleton.mp hx
    exact hxr ▸ hrootpres
  constructor
  · obtain ⟨relF, hfold, hp⟩ := getPartial_ok_fold d S false p hok
    obtain ⟨hmono, hpres, heach⟩ := getPartialFold_spec d hbfs hAp S [d.Root]
      relF hfold
    have hrelpres := hpres hinitpres
    intro s hs hreach
    obtain ⟨hsrel, hspres, hchainsub⟩ := heach s hs
    have hsQ : s ∈ queuedF := reach_mem_closed hrootQF hcloF hreach
    have hchN : PChainN Pf d.Root s Pf.length := hB s hsQ
    obtain ⟨hhd, hlast, hchain⟩ := chase_spec hrootNone hrootne hkeysne hchN
      (Pf.length + 1) (by omega)
    refine ⟨(chase Pf (Pf.length + 1) s).reverse, ?_, ?_, ?_, ?_⟩
    · rw [List.head?_reverse]; exact hlast
    · rw [List.getLast?_reverse]; exact hhd
    · rw [List.chain'_reverse]
      apply List.Chain'.imp ?_ hchain
      intro a b hab
      obtain ⟨⟨lf, hlf, hmem⟩, _, _⟩ := hA (a, b) (recGet_mem hab)
      exact ⟨lf, hlf, hmem⟩
    · intro x hx
      rw [List.mem_reverse] at hx
      have hxrel : x ∈ relF := hchainsub x hx
      obtain ⟨lf, hlf⟩ := hrelpres x hxrel
      rw [hp]
      refine List.mem_map.mpr ⟨(x, pruneClone relF false lf), ?_, rfl⟩
      exact List.mem_filterMap.mpr ⟨x, hxrel, by rw [hlf]; rfl⟩
  · obtain ⟨relF, hfold, hq⟩ := getPartial_ok_fold d S true q hokq
    obtain ⟨hmono, hpres, heach⟩ := getPartialFold_spec d hbfs hAp S [d.Root]
      relF hfold
    have hrelpres := hpres hinitpres
    rw [hq]
    unfold isPartial
    apply List.any_eq_false.mpr
    intro e he
    obtain ⟨h, hhrel, hsome⟩ := List.mem_filterMap.mp he
    match hgh : recGet d.Leafs h with
    | none => rw [hgh] at hsome; cases hsome
    | some lf =>
      rw [hgh] at hsome
      have he2 : e = (h, pruneClone relF true lf) :=
        (Option.some.inj hsome).symm
      subst he2
      simp only [Bool.not_eq_true, List.any_eq_false]
      intro l hl
      have hlinks : (pruneClone relF true lf).Links =
          lf.Links.filter (fun link => decide (link ∈ relF)) := by
        unfold pruneClone
        rw [if_pos rfl]
      rw [hlinks] at hl
      have hlrel : l ∈ relF := by
        have := List.of_mem_filter hl
        simpa using this
      obtain ⟨lfl, hlfl⟩ := hrelpres l hlrel
      have hmem' : (l, pruneClone relF true lfl) ∈
          relF.filterMap (fun h =>
            (recGet d.Leafs h).map (fun leaf => (h, pruneClone relF true leaf))) :=
        List.mem_filterMap.mpr ⟨l, hlrel, by rw [hlfl]; rfl⟩
      have hsome' := recGet_isSome_of_mem hmem'
      match hgr : recGet (relF.filterMap (fun h =>
          (recGet d.Leafs h).map (fun leaf => (h, pruneClone relF true leaf)))) l with
      | some v => rfl
      | none => rw [hgr] at hsome'; cases hsome'


def c9CexLeafR : DagLeaf :=
  { Hash := "r", ItemName := "r", TypeF := LeafType.Directory,
    CurrentLinkCount := 2, Links := ["a", "b"] }

def c9CexLeafA : DagLeaf :=
  { Hash := "a", ItemName := "a", TypeF := LeafType.Directory,
    CurrentLinkCount := 1, Links := ["c"] }

def c9CexLeafB : DagLeaf :=
  { Hash := "b", ItemName := "b", TypeF := LeafType.Directory,
    CurrentLinkCount := 1, Links := ["c"] }

def c9CexLeafC : DagLeaf :=
  { Hash := "c", ItemName := "c", TypeF := LeafType.File }

/-- A diamond DAG: the root links to `a` and `b`, both of which link to
`c`. -/
def c9CexDag : Dag :=
  { Root := "r",
    Leafs := [("r", c9CexLeafR), ("a", c9CexLeafA), ("b", c9CexLeafB),
      ("c", c9CexLeafC)] }

def c9wP : Dag :=
  { Root := "r", Labels := [],
    Leafs := [("r", c9CexLeafR), ("c", c9CexLeafC), ("a", c9CexLeafA)] }

def c9wQ : Dag :=
  { Root := "r", Labels := [],
    Leafs := [("r", { c9CexLeafR with Links := ["a"], CurrentLinkCount := 1 }),
      ("c", c9CexLeafC), ("a", c9CexLeafA)] }

/-- C9 counterexample: in the diamond DAG, `b` is an ancestor of the
requested leaf `c` (it is reachable from the root and links to `c`), yet
`getPartial` keeps only the single BFS parent path `r → a → c` and drops
`b`, so the result does not contain every ancestor of `c`. -/
theorem c9_counterexample :
    getPartial c9CexDag ["c"] false = .ok c9wP ∧
    Reach c9CexDag.Leafs c9CexDag.Root "b" ∧
    linksTo c9CexDag.Leafs "b" "c" ∧
    "b" ∉ recKeys c9wP.Leafs := by
  refine ⟨?_, ?_, ?_, ?_⟩
  · simp +decide [getPartial, getPartialStep, findPathToRoot, pathBFS_nil,
      pathBFS_cons_found, pathKids, chase, addUnique, recGet, pruneClone,
      c9CexDag, c9CexLeafR, c9CexLeafA, c9CexLeafB, c9CexLeafC, c9wP]
  · exact Reach.step (Reach.refl "r") (by decide : recGet c9CexDag.Leafs "r" =
      some c9CexLeafR) (by decide)
  · exact ⟨c9CexLeafB, by decide, by decide⟩
  · decide

theorem c9_witness :
    getPartial c9CexDag ["c"] false = .ok c9wP ∧
    getPartial c9CexDag ["c"] true = .ok c9wQ ∧
    ((∀ s ∈ ["c"], Reach c9CexDag.Leafs c9CexDag.Root s →
      ∃ path, path.head? = some c9CexDag.Root ∧ path.getLast? = some s ∧
        List.Chain' (linksTo c9CexDag.Leafs) path ∧
        ∀ x ∈ path, x ∈ recKeys c9wP.Leafs) ∧
    isPartial c9wQ = false) := by
  have hok : getPartial c9CexDag ["c"] false = .ok c9wP := by
    simp +decide [getPartial, getPartialStep, findPathToRoot, pathBFS_nil,
      pathBFS_cons_found, pathKids, chase, addUnique, recGet, pruneClone,
      c9CexDag, c9CexLeafR, c9CexLeafA, c9CexLeafB, c9CexLeafC, c9wP]
  have hokq : getPartial c9CexDag ["c"] true = .ok c9wQ := by
    simp +decide [getPartial, getPartialStep, findPathToRoot, pathBFS_nil,
      pathBFS_cons_found, pathKids, chase, addUnique, recGet, pruneClone,
      c9CexDag, c9CexLeafR, c9CexLeafA, c9CexLeafB, c9CexLeafC, c9wQ]
  exact ⟨hok, hokq, c9_partial_paths_and_prune c9CexDag ["c"] c9wP c9wQ
    (by decide) (by decide) hok hokq⟩

/-! ## C8: DAG diff round-trip -/


theorem collectDFS_nil (pool : List (String × DagLeaf)) (visited : List String)
    (acc : List (String × DagLeaf)) :
    collectDFS pool [] visited acc = .ok acc := by
  rw [collectDFS]

theorem collectDFS_cons_visited (pool : List (String × DagLeaf)) (h : String)
    (stack visited : List String) (acc : List (String × DagLeaf))
    (hv : h ∈ visited) :
    collectDFS pool (h :: stack) visited acc =
      collectDFS pool stack visited acc := by
  rw [collectDFS, dif_pos hv]

theorem collectDFS_cons_missing (pool : List (String × DagLeaf)) (h : String)
    (stack visited : List String) (acc : List (String × DagLeaf))
    (hv : h ∉ visited) (hget : recGet pool h = none) :
    collectDFS pool (h :: stack) visited acc =
      .error ("Missing leaf in pool: " ++ h) := by
  rw [collectDFS, dif_neg hv]
  split
  · rfl
  · rename_i leaf heq; rw [hget] at heq; cases heq

theorem collectDFS_cons_found (pool : List (String × DagLeaf)) (h : String)
    (stack visited : List String) (acc : List (String × DagLeaf))
    (leaf : DagLeaf) (hv : h ∉ visited) (hget : recGet pool h = some leaf) :
    collectDFS pool (h :: stack) visited acc =
      collectDFS pool (leaf.Links ++ stack) (h :: visited)
        (acc ++ [(h, leaf)]) := by
  rw [collectDFS, dif_neg hv]
  split
  · rename_i heq; rw [hget] at heq; cases heq
  · rename_i leaf' heq
    rw [hget] at heq
    cases Option.some.inj heq
    rfl

/-- Invariant of the `traverse` worklist of `applyDiffToDag`: every visited
hash was found in the pool and all its children are visited or pending. -/
def stackClosure (pool : List (String × DagLeaf))
    (visited stack : List String) : Prop :=
  ∀ v ∈ visited, ∃ leaf, recGet pool v = some leaf ∧
    ∀ l ∈ leaf.Links, l ∈ visited ∨ l ∈ stack

theorem collectDFS_spec (pool : List (String × DagLeaf)) (root : String) :
    ∀ (stack visited : List String) (acc acc' : List (String × DagLeaf)),
      collectDFS pool stack visited acc = .ok acc' →
      stackClosure pool visited stack →
      (∀ s ∈ stack, Reach pool root s) →
      (∀ v ∈ visited, Reach pool root v) →
      (∀ x ∈ recKeys acc, x ∈ recKeys acc') ∧
      ∃ visitedF : List String,
        (∀ v ∈ visited, v ∈ visitedF) ∧
        (∀ s ∈ stack, s ∈ visitedF) ∧
        (∀ v ∈ visitedF, ∃ leaf, recGet pool v = some leaf ∧
          ∀ l ∈ leaf.Links, l ∈ visitedF) ∧
        (∀ v ∈ visitedF, v ∈ visited ∨ v ∈ recKeys acc') ∧
        (∀ x ∈ recKeys acc', x ∈ recKeys acc ∨ x ∈ visitedF) ∧
        (∀ v ∈ visitedF, Reach pool root v) := by
  intro stack visited acc
  induction stack, visited, acc using collectDFS.induct pool with
  | case1 visited acc =>
    intro acc' hok hsc hsr hvr
    rw [collectDFS_nil] at hok
    have ha : acc = acc' := Except.ok.inj hok
    subst ha
    refine ⟨fun x hx => hx, visited, fun v hv => hv, fun s hs => absurd hs (by simp),
      ?_, fun v hv => Or.inl hv, fun x hx => Or.inl hx, hvr⟩
    intro v hv
    obtain ⟨leaf, hget, hl⟩ := hsc v hv
    refine ⟨leaf, hget, ?_⟩
    intro l hl'
    rcases hl l hl' with h1 | h2
    · exact h1
    · cases h2
  | case2 h stack visited acc hv ih =>
    intro acc' hok hsc hsr hvr
    rw [collectDFS_cons_visited pool h stack visited acc hv] at hok
    have hsc' : stackClosure pool visited stack := by
      intro v hvm
      obtain ⟨leaf, hget, hl⟩ := hsc v hvm
      refine ⟨leaf, hget, ?_⟩
      intro l hl'
      rcases hl l hl' with h1 | h2
      · exact Or.inl h1
      · rcases List.mem_cons.mp h2 with h3 | h4
        · exact Or.inl (h3 ▸ hv)
        · exact Or.inr h4
    obtain ⟨hacc, visitedF, h1, h2, h3, h4, h5, h6⟩ := ih acc' hok hsc'
      (fun s hs => hsr s (List.mem_cons_of_mem _ hs)) hvr
    refine ⟨hacc, visitedF, h1, ?_, h3, h4, h5, h6⟩
    intro s hs
    rcases List.mem_cons.mp hs with hh | ht
    · exact hh ▸ h1 h hv
    · exact h2 s ht
  | case3 h stack visited acc hv hget =>
    intro acc' hok hsc hsr hvr
    rw [collectDFS_cons_missing pool h stack visited acc hv hget] at hok
    cases hok
  | case4 h stack visited acc hv leaf hget ih =>
    intro acc' hok hsc hsr hvr
    rw [collectDFS_cons_found pool h stack visited acc leaf hv hget] at hok
    have hreach : Reach pool root h := hsr h (List.mem_cons_self _ _)
    have hsc' : stackClosure pool (h :: visited) (leaf.Links ++ stack) := by
      intro v hvm
      rcases List.mem_cons.mp hvm with hvh | hvo
      · subst hvh
        exact ⟨leaf, hget, fun l hl => Or.inr (List.mem_append.mpr (Or.inl hl))⟩
      · obtain ⟨lf, hlf, hl⟩ := hsc v hvo
        refine ⟨lf, hlf, ?_⟩
        intro l hl'
        rcases hl l hl' with h1 | h2
        · exact Or.inl (List.mem_cons_of_mem _ h1)
        · rcases List.mem_cons.mp h2 with h3 | h4
          · exact Or.inl (h3 ▸ List.mem_cons_self _ _)
          · exact Or.inr (List.mem_append.mpr (Or.inr h4))
    have hsr' : ∀ s ∈ leaf.Links ++ stack, Reach pool root s := by
      intro s hs
      rcases List.mem_append.mp hs with h1 | h2
      · exact Reach.step hreach hget h1
      · exact hsr s (List.mem_cons_of_mem _ h2)
    have hvr' : ∀ v ∈ h :: visited, Reach pool root v := by
      intro v hvm
      rcases List.mem_cons.mp hvm with h1 | h2
      · exact h1 ▸ hreach
      · exact hvr v h2
    obtain ⟨hacc, visitedF, h1, h2, h3, h4, h5, h6⟩ := ih acc' hok hsc' hsr' hvr'
    have haccm : ∀ x ∈ recKeys acc, x ∈ recKeys acc' := by
      intro x hx
      apply hacc
      unfold recKeys at hx ⊢
      rw [List.map_append]
      exact List.mem_append.mpr (Or.inl hx)
    refine ⟨haccm, visitedF, ?_, ?_, h3, ?_, ?_, h6⟩
    · intro v hvm
      exact h1 v (List.mem_cons_of_mem _ hvm)
    · intro s hs
      rcases List.mem_cons.mp hs with hh | ht
      · exact hh ▸ h1 h (List.mem_cons_self _ _)
      · exact h2 s (List.mem_append.mpr (Or.inr ht))
    · intro v hvf
      rcases h4 v hvf with hvis | hkey
      · rcases List.mem_cons.mp hvis with hh | ht
        · right
          apply hacc
          unfold recKeys
          rw [List.map_append]
          exact List.mem_append.mpr (Or.inr (hh ▸ List.mem_singleton.mpr rfl))
        · exact Or.inl ht
      · exact Or.inr hkey
    · intro x hx
      rcases h5 x hx with h7 | h8
      · unfold recKeys at h7
        rw [List.map_append] at h7
        rcases List.mem_append.mp h7 with h9 | h10
        · exact Or.inl h9
        · right
          have hxh : x = h := by simpa using h10
          exact hxh ▸ h1 h (List.mem_cons_self _ _)
      · exact Or.inr h8

theorem reach_mem_of_closed {leafs : List (String × DagLeaf)} {F : List String}
    (hclosed : ∀ v ∈ F, ∃ leaf, recGet leafs v = some leaf ∧
      ∀ l ∈ leaf.Links, l ∈ F)
    {r x : String} (hr : r ∈ F) (hreach : Reach leafs r x) : x ∈ F := by
  induction hreach with
  | refl => exact hr
  | step hrab hget hlink ih =>
    obtain ⟨lf, hlf, hl⟩ := hclosed _ ih
    rw [hget] at hlf
    cases Option.some.inj hlf
    exact hl _ hlink

theorem reach_parent {leafs : List (String × DagLeaf)} {r x : String}
    (h : Reach leafs r x) :
    x = r ∨ ∃ m leaf, recGet leafs m = some leaf ∧ x ∈ leaf.Links := by
  induction h with
  | refl => exact Or.inl rfl
  | step hrab hget hlink ih => exact Or.inr ⟨_, _, hget, hlink⟩

theorem mem_jsSetOf {x : String} {l : List String} :
    x ∈ jsSetOf l ↔ x ∈ l := by
  constructor
  · intro h
    rcases mem_of_foldl_addUnique l [] h with h1 | h2
    · cases h1
    · exact h2
  · intro h
    exact mem_foldl_addUnique l [] h

theorem recGet_exists_of_mem_keys {α : Type} {r : List (String × α)}
    {h : String} (hm : h ∈ recKeys r) : ∃ v, recGet r h = some v := by
  unfold recKeys at hm
  rcases List.mem_map.mp hm with ⟨e, he, hfst⟩
  have hs : (recGet r h).isSome := by
    unfold recGet
    have hfs : (r.find? (fun x => x.1 = h)).isSome :=
      List.find?_isSome.mpr ⟨e, he, by simp [hfst]⟩
    match hf : r.find? (fun x => x.1 = h) with
    | some v => rw [hf]; rfl
    | none => rw [hf] at hfs; cases hfs
  match hg : recGet r h with
  | some v => exact ⟨v, rfl⟩
  | none => rw [hg] at hs; cases hs

theorem recGet_map_set {α : Type} (k : String) (v : α) :
    ∀ r : List (String × α), (r.find? (fun e => e.1 = k)).isSome →
      recGet (r.map (fun e => if e.1 = k then (k, v) else e)) k = some v := by
  intro r
  induction r with
  | nil => intro h; cases h
  | cons e t ih =>
    intro h
    by_cases he : e.1 = k
    · unfold recGet
      rw [List.map_cons, if_pos he, List.find?_cons_of_pos _ (by simp)]
      rfl
    · rw [List.find?_cons_of_neg _ (by simp [he])] at h
      unfold recGet
      rw [List.map_cons, if_neg he, List.find?_cons_of_neg _ (by simp [he])]
      exact ih h

theorem recGet_map_set_ne {α : Type} (k h : String) (v : α) (hne : h ≠ k) :
    ∀ r : List (String × α),
      recGet (r.map (fun e => if e.1 = k then (k, v) else e)) h = recGet r h := by
  intro r
  induction r with
  | nil => rfl
  | cons e t ih =>
    by_cases he : e.1 = k
    · unfold recGet
      rw [List.map_cons, if_pos he,
        List.find?_cons_of_neg _ (by simpa using Ne.symm hne),
        List.find?_cons_of_neg _ (by simpa [he] using Ne.symm hne)]
      exact ih
    · by_cases heh : e.1 = h
      · unfold recGet
        rw [List.map_cons, if_neg he, List.find?_cons_of_pos _ (by simp [heh]),
          List.find?_cons_of_pos _ (by simp [heh])]
      · unfold recGet
        rw [List.map_cons, if_neg he, List.find?_cons_of_neg _ (by simp [heh]),
          List.find?_cons_of_neg _ (by simp [heh])]
        exact ih

theorem recGet_recSet_self {α : Type} (r : List (String × α)) (k : String)
    (v : α) : recGet (recSet r k v) k = some v := by
  unfold recSet
  split
  · rename_i hs
    exact recGet_map_set k v r hs
  · rename_i hns
    apply recGet_append_fresh
    unfold recGet
    match hf : r.find? (fun e => e.1 = k) with
    | none => rw [hf]; rfl
    | some e => exact absurd (by rw [hf]; rfl) hns

theorem recGet_recSet_ne {α : Type} (r : List (String × α)) {k h : String}
    (v : α) (hne : h ≠ k) : recGet (recSet r k v) h = recGet r h := by
  unfold recSet
  split
  · exact recGet_map_set_ne k h v hne r
  · match hg : recGet r h with
    | some w => exact recGet_append_some _ hg
    | none => exact recGet_append_ne v hne hg

theorem foldl_recSet_get_same {α : Type} (h : String) (v : α) :
    ∀ (l : List (String × α)) (base : List (String × α)),
      (∀ e ∈ l, e.1 = h → e.2 = v) →
      ((h, v) ∈ l ∨ recGet base h = some v) →
      recGet (l.foldl (fun pool e => recSet pool e.1 e.2) base) h = some v := by
  intro l
  induction l with
  | nil =>
    intro base _ hd
    rcases hd with h1 | h2
    · cases h1
    · exact h2
  | cons e t ih =>
    intro base hsame hd
    rw [List.foldl_cons]
    by_cases heh : e.1 = h
    · have hev : e.2 = v := hsame e (List.mem_cons_self _ _) heh
      apply ih (recSet base e.1 e.2)
      · intro x hx hxh
        exact hsame x (List.mem_cons_of_mem _ hx) hxh
      · right
        rw [← heh, ← hev]
        exact recGet_recSet_self base e.1 e.2
    · rcases hd with h1 | h2
      · rcases List.mem_cons.mp h1 with h3 | h4
        · exact absurd (congrArg Prod.fst h3).symm heh
        · exact ih _ (fun x hx hxh => hsame x (List.mem_cons_of_mem _ hx) hxh)
            (Or.inl h4)
      · apply ih _ (fun x hx hxh => hsame x (List.mem_cons_of_mem _ hx) hxh)
        right
        rw [recGet_recSet_ne base e.2 (fun hc => heh hc.symm)]
        exact h2

theorem foldl_recSet_get_absent {α : Type} (h : String) :
    ∀ (l : List (String × α)) (base : List (String × α)),
      (∀ e ∈ l, e.1 ≠ h) →
      recGet (l.foldl (fun pool e => recSet pool e.1 e.2) base) h =
        recGet base h := by
  intro l
  induction l with
  | nil => intro base _; rfl
  | cons e t ih =>
    intro base hne
    rw [List.foldl_cons]
    rw [ih _ (fun x hx => hne x (List.mem_cons_of_mem _ hx))]
    exact recGet_recSet_ne base e.2
      (fun hc => hne e (List.mem_cons_self _ _) hc.symm)

theorem mem_addedLeaves_diff {a b : Dag} {e : String × DagLeaf}
    (he : e ∈ getAddedLeaves (diff a b)) :
    e.1 ∉ recKeys a.Leafs ∧ recGet b.Leafs e.1 = some e.2 := by
  unfold getAddedLeaves diff at he
  dsimp only at he
  rcases List.mem_filterMap.mp he with ⟨d, hd, hfd⟩
  by_cases ht : d.2.type = DiffType.Added
  · rw [if_pos ht] at hfd
    have he2 : e = (d.1, d.2.leaf) := (Option.some.inj hfd).symm
    rcases List.mem_append.mp hd with hda | hdr
    · rcases List.mem_filterMap.mp hda with ⟨h, hh, hfh⟩
      by_cases hin : h ∈ jsSetOf (recKeys a.Leafs)
      · rw [if_pos hin] at hfh; cases hfh
      · rw [if_neg hin] at hfh
        match hg : recGet b.Leafs h with
        | none => rw [hg] at hfh; cases hfh
        | some leaf =>
          rw [hg] at hfh
          have hd2 : d = (h, ⟨.Added, h, leaf⟩) := (Option.some.inj hfh).symm
          subst hd2
          subst he2
          exact ⟨fun hc => hin (mem_jsSetOf.mpr hc), hg⟩
    · rcases List.mem_filterMap.mp hdr with ⟨h, hh, hfh⟩
      by_cases hin : h ∈ jsSetOf (recKeys b.Leafs)
      · rw [if_pos hin] at hfh; cases hfh
      · rw [if_neg hin] at hfh
        match hg : recGet a.Leafs h with
        | none => rw [hg] at hfh; cases hfh
        | some leaf =>
          rw [hg] at hfh
          have hd2 : d = (h, ⟨.Removed, h, leaf⟩) := (Option.some.inj hfh).symm
          rw [hd2] at ht
          simp at ht
  · rw [if_neg ht] at hfd
    cases hfd

theorem addedLeaves_diff_mem {a b : Dag} {h : String} {lB : DagLeaf}
    (hb : recGet b.Leafs h = some lB) (ha : h ∉ recKeys a.Leafs) :
    (h, lB) ∈ getAddedLeaves (diff a b) := by
  unfold getAddedLeaves diff
  dsimp only
  apply List.mem_filterMap.mpr
  refine ⟨(h, ⟨.Added, h, lB⟩), ?_, rfl⟩
  apply List.mem_append.mpr
  left
  apply List.mem_filterMap.mpr
  refine ⟨h, ?_, ?_⟩
  · exact mem_jsSetOf.mpr (key_mem_of_recGet_some hb)
  · rw [if_neg (fun hc => ha (mem_jsSetOf.mp hc)), hb]
    rfl

theorem added_zero_nil {a b : Dag} (h0 : (diff a b).summary.added = 0) :
    getAddedLeaves (diff a b) = [] := by
  unfold diff at h0 ⊢
  dsimp only at h0 ⊢
  unfold getAddedLeaves
  dsimp only
  have hAD := List.length_eq_zero.mp h0
  rw [hAD, List.nil_append]
  apply List.filterMap_eq_nil.mpr
  intro d hd
  rcases List.mem_filterMap.mp hd with ⟨h, hh, hfh⟩
  by_cases hin : h ∈ jsSetOf (recKeys b.Leafs)
  · rw [if_pos hin] at hfh; cases hfh
  · rw [if_neg hin] at hfh
    match hg : recGet a.Leafs h with
    | none => rw [hg] at hfh; cases hfh
    | some leaf =>
      rw [hg] at hfh
      have hd2 : d = (h, ⟨.Removed, h, leaf⟩) := (Option.some.inj hfh).symm
      rw [hd2]
      rfl

/-- C8 (amended): `applyDiffToDag (diff a b) a` reproduces `b`'s root and
leaf-hash set when `b` describes a well-formed target: leaves shared by
both DAGs agree, `b` is link-closed, every leaf of `b` is reachable from
`b.Root`, and `b.Root` is a genuinely new leaf (this forces at least one
addition; with no additions the code returns a copy of `a`, see the
counterexample). -/
theorem c8_apply_diff_reproduces_target (a b r : Dag)
    (hagree : ∀ h lA lB, recGet a.Leafs h = some lA →
      recGet b.Leafs h = some lB → lA = lB)
    (hbclosed : ∀ e ∈ b.Leafs, ∀ l ∈ e.2.Links, l ∈ recKeys b.Leafs)
    (hbreach : ∀ h ∈ recKeys b.Leafs, Reach b.Leafs b.Root h)
    (hrootb : b.Root ∈ recKeys b.Leafs)
    (hrootnew : b.Root ∉ recKeys a.Leafs)
    (hok : applyDiffToDag (diff a b) a = .ok r) :
    r.Root = b.Root ∧ ∀ h, h ∈ recKeys r.Leafs ↔ h ∈ recKeys b.Leafs := by
  have hpool : ∀ {h : String} {lB : DagLeaf}, recGet b.Leafs h = some lB →
      recGet ((getAddedLeaves (diff a b)).foldl
        (fun pool e => recSet pool e.1 e.2) a.Leafs) h = some lB := by
    intro h lB hb
    by_cases hak : h ∈ recKeys a.Leafs
    · obtain ⟨lA, hgA⟩ := recGet_exists_of_mem_keys hak
      have hlab : lA = lB := hagree h lA lB hgA hb
      rw [foldl_recSet_get_absent]
      · rw [hgA, hlab]
      · intro e he hc
        exact (mem_addedLeaves_diff he).1 (hc ▸ hak)
    · apply foldl_recSet_get_same
      · intro e he heh
        have := (mem_addedLeaves_diff he).2
        rw [heh, hb] at this
        exact (Option.some.inj this).symm
      · exact Or.inl (addedLeaves_diff_mem hb hak)
  obtain ⟨lR, hgR⟩ := recGet_exists_of_mem_keys hrootb
  have hne0 : ¬(diff a b).summary.added = 0 := by
    intro h0
    have := addedLeaves_diff_mem hgR hrootnew
    rw [added_zero_nil h0] at this
    cases this
  unfold applyDiffToDag at hok
  rw [if_neg hne0] at hok
  dsimp only at hok
  match hfind : (getAddedLeaves (diff a b)).find? (fun e =>
      decide (e.1 ∉ jsSetOf ((((getAddedLeaves (diff a b)).foldl
        (fun pool e => recSet pool e.1 e.2) a.Leafs).map
          (fun e => e.2.Links)).flatten)) &&
      decide (0 < e.2.LeafCount.getD 0)) with
  | none => rw [hfind] at hok; cases hok
  | some rootEntry =>
    rw [hfind] at hok
    dsimp only at hok
    match hcol : collectDFS ((getAddedLeaves (diff a b)).foldl
        (fun pool e => recSet pool e.1 e.2) a.Leafs) [rootEntry.1] [] [] with
    | .error e => rw [hcol] at hok; cases hok
    | .ok newLeaves =>
      rw [hcol] at hok
      dsimp only at hok
      have hr : r = { Root := rootEntry.1, Leafs := newLeaves, Labels := [] } :=
        (Except.ok.inj hok).symm
      have hmemAL := List.mem_of_find?_eq_some hfind
      have hpredt := List.find?_some hfind
      have hnotch : rootEntry.1 ∉ jsSetOf ((((getAddedLeaves (diff a b)).foldl
          (fun pool e => recSet pool e.1 e.2) a.Leafs).map
            (fun e => e.2.Links)).flatten) := by
        have hsplit := (Bool.and_eq_true _ _).mp hpredt
        exact of_decide_eq_true hsplit.1
      obtain ⟨hnota, hgb⟩ := mem_addedLeaves_diff hmemAL
      have hre : rootEntry.1 = b.Root := by
        by_contra hc
        have hkb : rootEntry.1 ∈ recKeys b.Leafs := key_mem_of_recGet_some hgb
        rcases reach_parent (hbreach _ hkb) with heq | ⟨m, lf, hgm, hlink⟩
        · exact hc heq
        · apply hnotch
          apply mem_jsSetOf.mpr
          apply List.mem_flatten.mpr
          exact ⟨lf.Links,
            List.mem_map.mpr ⟨(m, lf), recGet_mem (hpool hgm), rfl⟩, hlink⟩
      rw [hre] at hcol
      obtain ⟨hacc, visitedF, h1, h2, h3, h4, h5, h6⟩ :=
        collectDFS_spec ((getAddedLeaves (diff a b)).foldl
            (fun pool e => recSet pool e.1 e.2) a.Leafs) b.Root
          [b.Root] [] [] newLeaves hcol (fun v hv => absurd hv (by simp))
          (fun s hs => by
            have hseq : s = b.Root := List.mem_singleton.mp hs
            subst hseq
            exact Reach.refl _)
          (fun v hv => absurd hv (by simp))
      have hkeysF : ∀ x, x ∈ recKeys newLeaves ↔ x ∈ visitedF := by
        intro x
        constructor
        · intro hx
          rcases h5 x hx with hemp | hf
          · exact absurd hemp (by simp [recKeys])
          · exact hf
        · intro hx
          rcases h4 x hx with hemp | hk
          · exact absurd hemp (by simp)
          · exact hk
      have hpoolreach : ∀ x, Reach ((getAddedLeaves (diff a b)).foldl
          (fun pool e => recSet pool e.1 e.2) a.Leafs) b.Root x →
          x ∈ recKeys b.Leafs := by
        intro x hx
        induction hx with
        | refl => exact hrootb
        | step hrm hget hlink ih =>
          obtain ⟨lB, hgB⟩ := recGet_exists_of_mem_keys ih
          have hsame := hpool hgB
          rw [hget] at hsame
          cases Option.some.inj hsame
          exact hbclosed _ (recGet_mem hgB) _ hlink
      have htrans : ∀ {x y : String}, Reach b.Leafs x y →
          Reach ((getAddedLeaves (diff a b)).foldl
            (fun pool e => recSet pool e.1 e.2) a.Leafs) x y := by
        intro x y hxy
        induction hxy with
        | refl => exact Reach.refl _
        | step hrm hget hlink ih => exact Reach.step ih (hpool hget) hlink
      refine ⟨by rw [hr, hre], ?_⟩
      intro h
      rw [hr]
      constructor
      · intro hx
        exact hpoolreach h (h6 h ((hkeysF h).mp hx))
      · intro hx
        apply (hkeysF h).mpr
        exact reach_mem_of_closed h3 (h2 b.Root (List.mem_singleton.mpr rfl))
          (htrans (hbreach h hx))

def c8CexLx : DagLeaf :=
  { Hash := "x", ItemName := "x", TypeF := LeafType.Directory,
    CurrentLinkCount := 1, LeafCount := some 2, Links := ["y"] }

def c8CexLy : DagLeaf :=
  { Hash := "y", ItemName := "y", TypeF := LeafType.File }

/-- The old DAG of the C8 counterexample: root `x` with one child `y`. -/
def c8CexA : Dag := { Root := "x", Leafs := [("x", c8CexLx), ("y", c8CexLy)] }

/-- The new DAG of the C8 counterexample: the subtree rooted at `y`; every
one of its leaves already exists in the old DAG, so the diff has no
additions. -/
def c8CexB : Dag := { Root := "y", Leafs := [("y", c8CexLy)] }

/-- C8 counterexample: truncating a DAG to an existing subtree produces a
diff with zero additions, so `applyDiffToDag` returns a copy of the old
DAG whose root is not `b.Root` and whose leaf set is not `b`'s leaf set. -/
theorem c8_counterexample :
    applyDiffToDag (diff c8CexA c8CexB) c8CexA =
      .ok { Root := "x", Leafs := c8CexA.Leafs, Labels := [] } ∧
    ({ Root := "x", Leafs := c8CexA.Leafs, Labels := [] } : Dag).Root ≠
      c8CexB.Root ∧
    "x" ∈ recKeys c8CexA.Leafs ∧ "x" ∉ recKeys c8CexB.Leafs := by
  decide

def c8wLx : DagLeaf :=
  { Hash := "x", ItemName := "x", TypeF := LeafType.File }

def c8wLy : DagLeaf :=
  { Hash := "y", ItemName := "y", TypeF := LeafType.Directory,
    CurrentLinkCount := 1, LeafCount := some 2, Links := ["x"] }

def c8wA : Dag := { Root := "x", Leafs := [("x", c8wLx)] }

def c8wB : Dag := { Root := "y", Leafs := [("y", c8wLy), ("x", c8wLx)] }

def c8wR : Dag :=
  { Root := "y", Leafs := [("y", c8wLy), ("x", c8wLx)], Labels := [] }

theorem c8_witness :
    applyDiffToDag (diff c8wA c8wB) c8wA = .ok c8wR ∧
    c8wR.Root = c8wB.Root ∧
    (∀ h, h ∈ recKeys c8wR.Leafs ↔ h ∈ recKeys c8wB.Leafs) := by
  have hok : applyDiffToDag (diff c8wA c8wB) c8wA = .ok c8wR := by
    simp +decide [applyDiffToDag, diff, getAddedLeaves, recSet, recGet,
      jsSetOf, addUnique, collectDFS_nil, collectDFS_cons_visited,
      collectDFS_cons_missing, collectDFS_cons_found, recKeys,
      c8wA, c8wB, c8wLx, c8wLy, c8wR]
  have hagree : ∀ h lA lB, recGet c8wA.Leafs h = some lA →
      recGet c8wB.Leafs h = some lB → lA = lB := by
    intro h lA lB hA hB
    have hmem := recGet_mem hA
    have hx : h = "x" ∧ lA = c8wLx := by
      have := List.mem_singleton.mp hmem
      exact ⟨congrArg Prod.fst this, congrArg Prod.snd this⟩
    obtain ⟨hh, hla⟩ := hx
    subst hh
    have hBx : recGet c8wB.Leafs "x" = some c8wLx := by decide
    rw [hBx] at hB
    rw [hla, Option.some.inj hB]
  have hbreach : ∀ h ∈ recKeys c8wB.Leafs, Reach c8wB.Leafs c8wB.Root h := by
    intro h hm
    rcases List.mem_cons.mp hm with h1 | h2
    · subst h1
      exact Reach.refl _
    · rcases List.mem_cons.mp h2 with h3 | h4
      · subst h3
        exact Reach.step (Reach.refl "y")
          (show recGet c8wB.Leafs "y" = some c8wLy by decide) (by decide)
      · cases h4
  exact ⟨hok, c8_apply_diff_reproduces_target c8wA c8wB c8wR hagree
    (by decide) hbreach (by decide) (by decide) hok⟩
